import Mathlib

/-!
Verification development for the QAlgorithm dataflow engine
(Sources/QAlgorithm.h, Sources/QAlgorithm.cpp, Sources/qa_macros.h).

Shallow embedding notes.

* A node (`QAlgorithm`) is modelled as a record of its completion flags,
  its built-in parameters (`par_KeepInput`, `par_ParallelExecution`,
  `par_PropagationRules` — kept as dedicated fields), its Qt object name,
  its prefixed data properties (`algin_*`, `algout_*`, `par_*` slots of a
  concrete subclass, as an association list name → QVariant), and its two
  completion maps `ancestors`/`descendants` (association lists keyed by
  node index, kept sorted by key to mirror QMap's key-sorted iteration
  over shared-pointer keys).
* A `QVariant` is `Option Nat`: `none` is the invalid variant.
* The graph state is a list of nodes; a node is addressed by its index.
* `run` bodies are pure slot updates (`RunImpl`); the engine is
  parameterised by them.  `abort` emits a signal and touches no state,
  exactly as in the source.
* The schedulers are recursive through the graph; recursion is fuelled.
  Every recursive call consumes one unit of fuel, so all functions are
  structurally recursive in the fuel; supplying enough fuel yields the
  behaviour of the source.  `parallelExecution` dispatches `run` on a
  QtConcurrent worker and `QFutureWatcher::finished` later triggers
  `setFinished` on the main event loop; this is modelled by the
  single-worker eager schedule in which the dispatched `run` completes and
  its `justFinished` propagation is processed before the caller continues.
* Signal wiring follows `QAlgorithm::setup`: `justFinished` is directly
  connected to `propagateExecution`; `justStarted` has no connected slot.
* Self-connections (a node connected to itself) are outside the model:
  `getInput` reads the parent's properties from a snapshot, which in the
  source only differs from live reads when parent and child alias.
-/

/-- Prefix for input properties (`QA_IN` in qa_macros.h). -/
def QA_IN : String := "algin_"

/-- Prefix for output properties (`QA_OUT` in qa_macros.h). -/
def QA_OUT : String := "algout_"

/-- Prefix for parameters (`QA_PAR` in qa_macros.h). -/
def QA_PAR : String := "par_"

/-- A QVariant value: `none` models the invalid variant `QVariant()`. -/
abbrev QVar := Option Nat

/-- One node of the algorithm graph: the state held by class `QAlgorithm`
(QAlgorithm.h).  `props` holds the prefixed data properties of the concrete
subclass; `runCount` instruments how many times `run` has executed. -/
structure QAlgorithm where
  objectName : String
  started : Bool
  finished : Bool
  /-- `QA_PARAMETER(bool, KeepInput, false)` -/
  keepInput : Bool
  /-- `QA_PARAMETER(bool, ParallelExecution, true)` -/
  parallelFlag : Bool
  /-- `QA_PARAMETER(QAPropagationRules, PropagationRules, ...)`; the list
  order models the order `QMultiMap::values` yields for each key. -/
  propagationRules : List (String × String)
  props : List (String × QVar)
  /-- ancestors completion map, keyed by node index, sorted by key -/
  ancestors : List (Nat × Bool)
  /-- descendants completion map, keyed by node index, sorted by key -/
  descendants : List (Nat × Bool)
  runCount : Nat
deriving DecidableEq

/-- Default-constructed node: flags false, `KeepInput = false`,
`ParallelExecution = true`, empty rules, no connections. -/
instance : Inhabited QAlgorithm :=
  ⟨{ objectName := "", started := false, finished := false,
     keepInput := false, parallelFlag := true, propagationRules := [],
     props := [], ancestors := [], descendants := [], runCount := 0 }⟩

/-- The graph: nodes addressed by index (standing in for shared pointers). -/
abbrev GraphState := List QAlgorithm

/-- A `run` implementation for each node: a pure update of its own
properties (concrete subclasses write outputs computed from inputs). -/
abbrev RunImpl := Nat → List (String × QVar) → List (String × QVar)

/-- Fetch node `i` (dereference a shared pointer). -/
def getN (s : GraphState) (i : Nat) : QAlgorithm := s.getD i default

/-- Update node `i` in place; out-of-range indices leave the state as is. -/
def updN : GraphState → Nat → (QAlgorithm → QAlgorithm) → GraphState
  | [], _, _ => []
  | n :: rest, 0, f => f n :: rest
  | n :: rest, i + 1, f => n :: updN rest i f

/-- `QMap::contains` on a completion map. -/
def mapContains (m : List (Nat × Bool)) (k : Nat) : Bool :=
  m.any (fun p => p.1 == k)

/-- `QMap::operator[] =` on a completion map: update in place, or insert
keeping the keys sorted (QMap iterates keys in sorted order). -/
def mapSet : List (Nat × Bool) → Nat → Bool → List (Nat × Bool)
  | [], k, v => [(k, v)]
  | (a, b) :: rest, k, v =>
    if k < a then (k, v) :: (a, b) :: rest
    else if k = a then (k, v) :: rest
    else (a, b) :: mapSet rest k v

/-- `QMap::remove`. -/
def mapRemove (m : List (Nat × Bool)) (k : Nat) : List (Nat × Bool) :=
  m.filter (fun p => p.1 ≠ k)

/-- `QMap::keys`. -/
def mapKeys (m : List (Nat × Bool)) : List Nat := m.map (·.1)

/-- `QMap::keys(value)`: the keys mapped to `value`, in key order. -/
def mapKeysWith (m : List (Nat × Bool)) (v : Bool) : List Nat :=
  (m.filter (fun p => p.2 == v)).map (·.1)

/-- `QVariant::isValid`-aware property read: `QObject::property` returns the
invalid variant for a missing property. -/
def propGet : List (String × QVar) → String → QVar
  | [], _ => none
  | (n, v) :: rest, name => if n = name then v else propGet rest name

/-- `QObject::setProperty` on a declared property: writes the first slot of
that name. -/
def propSet : List (String × QVar) → String → QVar → List (String × QVar)
  | [], _, _ => []
  | (n, v) :: rest, name, w =>
    if n = name then (n, w) :: rest else (n, v) :: propSet rest name w

/-- `QMultiMap::contains` on the propagation rules. -/
def rulesContains (rules : List (String × String)) (k : String) : Bool :=
  rules.any (fun p => p.1 == k)

/-- `QMultiMap::values(key)`. -/
def rulesValues (rules : List (String × String)) (k : String) : List String :=
  (rules.filter (fun p => p.1 == k)).map (·.2)

/-- Character-list prefix test, helper for the substring test below. -/
def charsPrefix : List Char → List Char → Bool
  | [], _ => true
  | _ :: _, [] => false
  | a :: ps, b :: ss => a == b && charsPrefix ps ss

/-- Character-list substring test. -/
def charsInfix : List Char → List Char → Bool
  | pat, [] => charsPrefix pat []
  | pat, b :: ss => charsPrefix pat (b :: ss) || charsInfix pat ss

/-- `QString::startsWith(pre)`. -/
def strStartsWith (s pre : String) : Bool := charsPrefix pre.toList s.toList

/-- `QString::contains(pat)` (an empty pattern matches every string, as in
Qt). -/
def strContains (s pat : String) : Bool := charsInfix pat.toList s.toList

/-- Child-side base-name resolution, `QAlgorithm::getInput` lines 209-228:
identity when the child's rules do not mention the parent base name, the
single mapped value when there is exactly one, otherwise the first mapped
value whose string contains the parent's object name.  `QList::first()` on
an empty list is undefined behaviour in the source; it is modelled as `""`
(a name no prefixed child property can carry). -/
def childBaseName (rules : List (String × String)) (parentObjName base : String) :
    String :=
  if ¬ rulesContains rules base then base
  else
    let values := rulesValues rules base
    if values.length > 1 then
      ((values.filter (fun v => strContains v parentObjName)).headD "")
    else values.headD ""

/-- Inner loop of `QAlgorithm::getInput` (lines 235-257): scan the child's
properties; every property named `algin_<t>` or `par_<t>` receives the
parent's value.  If the parent's value is invalid at a matching property,
the source logs and returns `false` from `getInput`: that outcome is
`none` here. -/
def getInputInner (pv : QVar) (t : String) :
    List (String × QVar) → Option (List (String × QVar))
  | [] => some []
  | (cn, cv) :: rest =>
    if cn = QA_IN ++ t ∨ cn = QA_PAR ++ t then
      match pv with
      | some v => (getInputInner pv t rest).map (fun r => (cn, some v) :: r)
      | none => none
    else (getInputInner pv t rest).map (fun r => (cn, cv) :: r)

/-- Outer loop of `QAlgorithm::getInput` (lines 192-259): scan the parent's
properties; outputs always enter the transfer, parameters only when the
child's rules mention their base name; on a failed transfer the whole
`getInput` stops and returns `false`, keeping the writes made so far. -/
def getInputLoop (pObjName : String) :
    List (String × QVar) → QAlgorithm → QAlgorithm × Bool
  | [], child => (child, true)
  | (pname, pv) :: rest, child =>
    let base? : Option String :=
      if strStartsWith pname QA_OUT then some (pname.drop QA_OUT.length)
      else if strStartsWith pname QA_PAR then some (pname.drop QA_PAR.length)
      else none
    match base? with
    | none => getInputLoop pObjName rest child
    | some base =>
      if strStartsWith pname QA_PAR ∧ ¬ rulesContains child.propagationRules base then
        getInputLoop pObjName rest child
      else
        let t := childBaseName child.propagationRules pObjName base
        match getInputInner pv t child.props with
        | some ps => getInputLoop pObjName rest { child with props := ps }
        | none => (child, false)

/-- `QAlgorithm::getInput(parent)`: called on the child, reading the
parent's output and parameter properties. -/
def getInput (child parent : QAlgorithm) : QAlgorithm × Bool :=
  getInputLoop parent.objectName parent.props child

/-- `QAlgorithm::allInputsReady`: no ancestor completion bit is false. -/
def allInputsReady (n : QAlgorithm) : Bool := n.ancestors.all (·.2)

/-- `getAncestors().keys(false)`: the not-yet-finished ancestors. -/
def ancKeysFalse (n : QAlgorithm) : List Nat := mapKeysWith n.ancestors false

/-- `QAlgorithm::findSharedThis`: a shared pointer to this node is found
among its descendants' ancestor maps or its ancestors' descendant maps. -/
def hasSharedThis (s : GraphState) (i : Nat) : Bool :=
  (mapKeys (getN s i).descendants).any (fun d => mapContains (getN s d).ancestors i)
  || (mapKeys (getN s i).ancestors).any (fun a => mapContains (getN s a).descendants i)

/-- `QAlgorithm::setConnection` (QAlgorithm.cpp lines 430-436), state part:
record the edge in both completion maps with the peer's `finished` bit.
(The queued `raise → abort` signal wiring carries no state.) -/
def setConnection (s : GraphState) (a d : Nat) : GraphState :=
  let s1 := updN s a (fun n => { n with descendants := mapSet n.descendants d (getN s d).finished })
  updN s1 d (fun n => { n with ancestors := mapSet n.ancestors a (getN s a).finished })

/-- `QAlgorithm::closeConnection` (lines 438-444), state part: remove the
edge from both completion maps. -/
def closeConnection (s : GraphState) (a d : Nat) : GraphState :=
  let s1 := updN s a (fun n => { n with descendants := mapRemove n.descendants d })
  updN s1 d (fun n => { n with ancestors := mapRemove n.ancestors a })

/-- `QAlgorithm::checkConnection` (lines 446-449). -/
def checkConnection (s : GraphState) (a d : Nat) : Bool :=
  mapContains (getN s a).descendants d && mapContains (getN s d).ancestors a

/-- `QAlgorithm::abort` (lines 303-306 and header line 588): emit
`raise(message)`, message defaulting to "Unknown Error"; no state is read
or written.  The result pairs the (unchanged) state with the emitted
signals. -/
def abortAlg (s : GraphState) (i : Nat) (message : Option String) :
    GraphState × List (Nat × String) :=
  (s, [(i, message.getD "Unknown Error")])

/-- `foreach(auto ancestor, getAncestors().keys()) ancestor->descendants[shr_this] = true`
(QAlgorithm.cpp line 159). -/
def notifyAncestors (s : GraphState) (i : Nat) : List Nat → GraphState
  | [] => s
  | a :: rest =>
    notifyAncestors (updN s a (fun n => { n with descendants := mapSet n.descendants i true })) i rest

/-- Clear every input property (`propagateExecution` lines 170-176: set each
`algin_*` property to the invalid variant). -/
def clearInputs (ps : List (String × QVar)) : List (String × QVar) :=
  ps.map (fun p => if strStartsWith p.1 QA_IN then (p.1, none) else p)

/-- The calls of the mutually recursive scheduler procedures of
QAlgorithm.cpp: `serialExecution`, its ancestor walk, `parallelExecution`,
its ancestor walk, `propagateExecution`, and the descendant loop of
`propagateExecution`.  The mutual recursion is expressed as one fuelled
function over this call type so that it reduces structurally. -/
inductive EngineCall where
  | serialExec (i : Nat)
  | serialWalk (ancs : List Nat)
  | parallelExec (i : Nat)
  | parallelWalk (ancs : List Nat)
  | propagateExec (i : Nat)
  | propagateLoop (i : Nat) (descs : List Nat)

/-- The scheduler of QAlgorithm.cpp, one case per procedure:

* `serialExec i` — `QAlgorithm::serialExecution` (lines 283-301): if some
  ancestor is unfinished, walk the not-yet-finished ancestors; then
  unconditionally set `ParallelExecution = false`, set `started`, call
  `run`, set `finished` (which directly triggers `propagateExecution`).
* `serialWalk` — the `for` loop of `serialExecution`: dispatch each listed
  ancestor unless it has started meanwhile.
* `parallelExec i` — `QAlgorithm::parallelExecution` (lines 262-281) under
  the single-worker eager schedule: when ready, set `started`, execute
  `run` on the pool and, on the watcher's completion, set `finished` and
  propagate; otherwise walk the unfinished ancestors.
* `parallelWalk` — the `for` loop of `parallelExecution`.
* `propagateExec i` — `QAlgorithm::propagateExecution` (lines 153-185): if
  a shared pointer to this node is found, mark this node complete in every
  ancestor's descendant map, then process the descendants (a snapshot of
  the keys, as `foreach` iterates a copy).
* `propagateLoop i ds` — the descendant loop (lines 161-183): mark this
  node complete in the descendant's ancestor map, transfer
  outputs/parameters via `getInput`, and — when the *descendant's*
  `KeepInput` is false — close the connection and clear this node's input
  properties; finally dispatch the descendant (unless started) serially or
  in parallel according to this node's current `ParallelExecution`. -/
def engine : Nat → RunImpl → GraphState → EngineCall → GraphState
  | 0, _, s, _ => s
  | fuel + 1, runI, s, c =>
    match c with
    | .serialExec i =>
      let s1 :=
        if allInputsReady (getN s i) then s
        else engine fuel runI s (.serialWalk (ancKeysFalse (getN s i)))
      let s2 := updN s1 i (fun n => { n with parallelFlag := false })
      let s3 := updN s2 i (fun n => { n with started := true })
      let s4 := updN s3 i (fun n => { n with props := runI i n.props, runCount := n.runCount + 1 })
      let s5 := updN s4 i (fun n => { n with finished := true })
      engine fuel runI s5 (.propagateExec i)
    | .serialWalk [] => s
    | .serialWalk (a :: rest) =>
      let s1 := if (getN s a).started then s else engine fuel runI s (.serialExec a)
      engine fuel runI s1 (.serialWalk rest)
    | .parallelExec i =>
      if allInputsReady (getN s i) then
        let s1 := updN s i (fun n => { n with started := true })
        let s2 := updN s1 i (fun n => { n with props := runI i n.props, runCount := n.runCount + 1 })
        let s3 := updN s2 i (fun n => { n with finished := true })
        engine fuel runI s3 (.propagateExec i)
      else engine fuel runI s (.parallelWalk (ancKeysFalse (getN s i)))
    | .parallelWalk [] => s
    | .parallelWalk (a :: rest) =>
      let s1 := if (getN s a).started then s else engine fuel runI s (.parallelExec a)
      engine fuel runI s1 (.parallelWalk rest)
    | .propagateExec i =>
      if hasSharedThis s i then
        let s1 := notifyAncestors s i (mapKeys (getN s i).ancestors)
        engine fuel runI s1 (.propagateLoop i (mapKeys (getN s1 i).descendants))
      else s
    | .propagateLoop _ [] => s
    | .propagateLoop i (d :: rest) =>
      let s1 := updN s d (fun n => { n with ancestors := mapSet n.ancestors i true })
      let s2 := updN s1 d (fun _ => (getInput (getN s1 d) (getN s1 i)).1)
      let s3 :=
        if (getN s2 d).keepInput then s2
        else
          let s2a := closeConnection s2 i d
          updN s2a i (fun n => { n with props := clearInputs n.props })
      let s4 :=
        if (getN s3 d).started then s3
        else if (getN s3 i).parallelFlag then engine fuel runI s3 (.parallelExec d)
        else engine fuel runI s3 (.serialExec d)
      engine fuel runI s4 (.propagateLoop i rest)

/-- `QAlgorithm::serialExecution` on node `i`. -/
def serialExecution (fuel : Nat) (runI : RunImpl) (s : GraphState) (i : Nat) :
    GraphState :=
  engine fuel runI s (.serialExec i)

/-- `QAlgorithm::parallelExecution` on node `i`. -/
def parallelExecution (fuel : Nat) (runI : RunImpl) (s : GraphState) (i : Nat) :
    GraphState :=
  engine fuel runI s (.parallelExec i)

/-- `QAlgorithm::propagateExecution` on node `i`. -/
def propagateExecution (fuel : Nat) (runI : RunImpl) (s : GraphState) (i : Nat) :
    GraphState :=
  engine fuel runI s (.propagateExec i)

/-- `QAlgorithm::isRemovableConnection` (QAlgorithm.cpp lines 451-462): the
two nodes must be connected in one direction or the other, the parent must
have exactly one descendant and the child exactly one ancestor. -/
def isRemovableConnection (s : GraphState) (p1 p2 : Nat) : Bool :=
  if checkConnection s p2 p1 then
    ((getN s p2).descendants.length == 1) && ((getN s p1).ancestors.length == 1)
  else if checkConnection s p1 p2 then
    ((getN s p1).descendants.length == 1) && ((getN s p2).ancestors.length == 1)
  else false

/-- `QAlgorithm::flattenTree` of a connected graph: every node of the state
is in the weakly connected component, so the flat representation maps each
node to the keys of its descendant map.  Keys come in index order,
mirroring QMap's sorted iteration. -/
def flattenTree (s : GraphState) : List (Nat × List Nat) :=
  (List.range s.length).map (fun i => (i, mapKeys (getN s i).descendants))

/-- `QMap<QAShrAlgorithm, QList<...>>::value(k)` on the replacement map. -/
def lookupRep : List (Nat × List Nat) → Nat → Option (List Nat)
  | [], _ => none
  | (a, l) :: rest, k => if a = k then some l else lookupRep rest k

/-- Key removal on the replacement map (`QMap::take`, dropping the value). -/
def removeRep : List (Nat × List Nat) → Nat → List (Nat × List Nat)
  | [], _ => []
  | (a, l) :: rest, k => if a = k then rest else (a, l) :: removeRep rest k

/-- `replacements[k] += l2` (`QMap::operator[]` inserts an empty list when
the key is absent, then appends). -/
def appendRep : List (Nat × List Nat) → Nat → List Nat → List (Nat × List Nat)
  | [], k, l2 => [(k, l2)]
  | (a, l) :: rest, k, l2 =>
    if a = k then (a, l ++ l2) :: rest else (a, l) :: appendRep rest k l2

/-- Replacement-map construction, `QAlgorithm::improveTree` lines 553-563:
for every key of the flat map and every child of that key, record the
child under the key when the connection is removable. -/
def buildRepsChildren (s : GraphState) (ptr : Nat) :
    List Nat → List (Nat × List Nat) → List (Nat × List Nat)
  | [], rs => rs
  | c :: cs, rs =>
    buildRepsChildren s ptr cs
      (if isRemovableConnection s ptr c then appendRep rs ptr [c] else rs)

/-- Outer loop of the replacement-map construction. -/
def buildRepsFrom (s : GraphState) :
    List (Nat × List Nat) → List (Nat × List Nat) → List (Nat × List Nat)
  | [], rs => rs
  | (ptr, children) :: rest, rs =>
    buildRepsFrom s rest (buildRepsChildren s ptr children rs)

/-- The replacement map of `improveTree` before coalescing. -/
def buildReplacements (s : GraphState) : List (Nat × List Nat) :=
  buildRepsFrom s (flattenTree s) []

/-- One pass of the coalescing `foreach` (`improveTree` lines 569-580):
find the first key, in map order, whose list's last element is itself a
key; return that key and its last element.  (The source's
`QList::last()` on an empty list is undefined behaviour; an entry with an
empty list — which the construction never produces — is skipped here.) -/
def coalesceFind (all : List (Nat × List Nat)) :
    List (Nat × List Nat) → Option (Nat × Nat)
  | [] => none
  | (p1, l1) :: rest =>
    match l1.getLast? with
    | none => coalesceFind all rest
    | some p2 =>
      if (lookupRep all p2).isSome then some (p1, p2) else coalesceFind all rest

/-- The coalescing `while(some_changes)` loop of `improveTree` (lines
565-581): whenever some key's list ends in another key, append that key's
list to it and delete the other entry; the keys snapshot is recomputed
after every change.  Each merge deletes one key, so fuel equal to the
number of entries suffices; on the cyclic inputs where the source would
loop forever the fuel simply runs out. -/
def coalesce : Nat → List (Nat × List Nat) → List (Nat × List Nat)
  | 0, rs => rs
  | fuel + 1, rs =>
    match coalesceFind rs rs with
    | none => rs
    | some (p1, p2) =>
      coalesce fuel (appendRep (removeRep rs p2) p1 ((lookupRep rs p2).getD []))

/-- Final loop of `improveTree` (lines 583-591): for every replacement
list, drop its last node and set `ParallelExecution` to `false` on the
remaining ones. -/
def applySerial (s : GraphState) (rs : List (Nat × List Nat)) : GraphState :=
  rs.foldl
    (fun s p => p.2.dropLast.foldl
      (fun s n => updN s n (fun q => { q with parallelFlag := false })) s)
    s

/-- `QAlgorithm::improveTree` (QAlgorithm.cpp lines 549-592). -/
def improveTree (s : GraphState) : GraphState :=
  let rs := buildReplacements s
  applySerial s (coalesce rs.length rs)

/-- `[a, a+1, ..., a+n-1]`: index sequences used to build path graphs. -/
def natSeq : Nat → Nat → List Nat
  | _, 0 => []
  | a, n + 1 => a :: natSeq (a + 1) n

/-- Node `i` of a simple path graph on `k` nodes `0 → 1 → ⋯ → k-1`, every
flag at its default. -/
def pathNode (k i : Nat) : QAlgorithm :=
  { (default : QAlgorithm) with
      ancestors := if i = 0 then [] else [(i - 1, false)],
      descendants := if i + 1 < k then [(i + 1, false)] else [] }

/-- The simple path graph on `k` nodes. -/
def pathState (k : Nat) : GraphState := (List.range k).map (pathNode k)

/-! Concrete instances used to evaluate the engine at specific inputs.
Each mirrors a tiny pipeline built from `QA_INPUT`/`QA_OUTPUT` subclasses
wired with `setConnection` (via `operator>>`) and run by a scheduler. -/

/-- A `run` that copies its value through a two/three node chain:
node 0 produces `algout_X := 1`, node 1 copies `algin_X` to `algout_Y`,
node 2 copies `algin_Y` to `algout_Z` (a deterministic pipeline). -/
def runChain : RunImpl := fun i ps =>
  if i = 0 then propSet ps "algout_X" (some 1)
  else if i = 1 then propSet ps "algout_Y" (propGet ps "algin_X")
  else propSet ps "algout_Z" (propGet ps "algin_Y")

/-- A `run` that changes nothing (outputs preset where needed). -/
def runNoop : RunImpl := fun _ ps => ps

/-- Two-node chain `0 → 1`, both nodes fresh, default flags. -/
def sChain2 : GraphState :=
  [ { (default : QAlgorithm) with
        props := [("algout_X", none)], descendants := [(1, false)] },
    { (default : QAlgorithm) with
        props := [("algin_X", none), ("algout_Y", none)],
        ancestors := [(0, false)] } ]

/-- Three-node chain `0 → 1 → 2`, all nodes fresh, default flags. -/
def sChain3 : GraphState :=
  [ { (default : QAlgorithm) with
        props := [("algout_X", none)], descendants := [(1, false)] },
    { (default : QAlgorithm) with
        props := [("algin_X", none), ("algout_Y", none)],
        ancestors := [(0, false)], descendants := [(2, false)] },
    { (default : QAlgorithm) with
        props := [("algin_Y", none), ("algout_Z", none)],
        ancestors := [(1, false)] } ]

/-- `run` for the KeepInput scenario: node 0 writes `algout_O := 7`. -/
def runKeep : RunImpl := fun i ps =>
  if i = 0 then propSet ps "algout_O" (some 7) else ps

/-- Chain `0 → 1` where node 0 has `KeepInput = false` and a filled input
slot, while its descendant node 1 has `KeepInput = true`. -/
def sKeep : GraphState :=
  [ { (default : QAlgorithm) with
        props := [("algin_I", some 5), ("algout_O", none)],
        descendants := [(1, false)] },
    { (default : QAlgorithm) with
        keepInput := true, props := [("algin_O", none)],
        ancestors := [(0, false)] } ]

/-- Parent holding a single parameter slot `par_P = 7`. -/
def paramParent (v : Nat) : QAlgorithm :=
  { (default : QAlgorithm) with props := [("par_P", some v)] }

/-- Child whose rules map `P ↦ X` but which has no slot named `X`. -/
def unmatchedChild : QAlgorithm :=
  { (default : QAlgorithm) with
      props := [("algin_Y", none)], propagationRules := [("P", "X")] }

/-- Child whose rules map `P ↦ X` and which has the input slot `algin_X`. -/
def ruledChild (w : QVar) : QAlgorithm :=
  { (default : QAlgorithm) with
      props := [("algin_X", w)], propagationRules := [("P", "X")] }

/-- Parent holding a single output slot `algout_X`. -/
def outParent (v : Nat) : QAlgorithm :=
  { (default : QAlgorithm) with props := [("algout_X", some v)] }

/-- Child with input slot `algin_X` and no propagation rules. -/
def plainChild (w : QVar) : QAlgorithm :=
  { (default : QAlgorithm) with props := [("algin_X", w)] }

/-- Parent with an all-parameter property table and no matching rules on
the child side: `par_K` and `par_M`. -/
def paramOnlyParent : QAlgorithm :=
  { (default : QAlgorithm) with
      props := [("par_K", some 2), ("par_M", none)] }

/-- Child with an input slot for each of the parent's parameter base names
but no propagation rules mentioning them. -/
def noRuleChild : QAlgorithm :=
  { (default : QAlgorithm) with
      props := [("algin_K", none), ("par_M", some 9)] }

/-- Parent with an invalid first output (`algout_A`) and a valid second
output (`algout_B`). -/
def invalidFirstParent : QAlgorithm :=
  { (default : QAlgorithm) with
      props := [("algout_A", none), ("algout_B", some 3)] }

/-- Child with matching input slots for both of the parent's outputs. -/
def twoInputChild : QAlgorithm :=
  { (default : QAlgorithm) with
      props := [("algin_A", none), ("algin_B", none)] }

/-- Chain `0 → 1` embedding `invalidFirstParent`/`twoInputChild`. -/
def sPartial : GraphState :=
  [ { invalidFirstParent with descendants := [(1, false)] },
    { twoInputChild with ancestors := [(0, false)] } ]

/-- A single unconnected node (used for the abort-then-dispatch scenario). -/
def sLone : GraphState := [ (default : QAlgorithm) ]

/-- A sequence of graph-API calls: `(true, a, d)` is `setConnection a d`,
`(false, a, d)` is `closeConnection a d`. -/
def applyConnectionOps (s : GraphState) : List (Bool × Nat × Nat) → GraphState
  | [] => s
  | (true, a, d) :: rest => applyConnectionOps (setConnection s a d) rest
  | (false, a, d) :: rest => applyConnectionOps (closeConnection s a d) rest

/-- The adjacency maps are symmetric: for all nodes `a` and `d` of the
graph, `d` is in `a`'s descendants map iff `a` is in `d`'s ancestors
map. -/
def symmetricGraph (s : GraphState) : Prop :=
  ∀ a, a < s.length → ∀ d, d < s.length →
    (mapContains (getN s a).descendants d = true ↔ mapContains (getN s d).ancestors a = true)

/-- Every ancestor or descendant key of a node of the graph is itself a
node of the graph (states built through `setConnection` have this shape). -/
def boundedGraph (s : GraphState) : Prop :=
  ∀ i, i < s.length →
    (∀ c ∈ mapKeys (getN s i).descendants, c < s.length) ∧
    (∀ a ∈ mapKeys (getN s i).ancestors, a < s.length)

/-- A removable connection in the direction parent → child
(`QAlgorithm::isRemovableConnection` when `checkConnection(p, c)` holds):
the nodes are connected, the parent has exactly one descendant and the
child exactly one ancestor. -/
def removableEdge (s : GraphState) (p c : Nat) : Bool :=
  checkConnection s p c && ((getN s p).descendants.length == 1)
    && ((getN s c).ancestors.length == 1)

/-- The node is the child end of some removable edge (an interior or final
node of a chain). -/
def hasRemIn (s : GraphState) (n : Nat) : Prop :=
  ∃ p, p < s.length ∧ removableEdge s p n = true

/-- The node is the parent end of some removable edge (a head or interior
node of a chain). -/
def hasRemOut (s : GraphState) (n : Nat) : Prop :=
  ∃ c, c < s.length ∧ removableEdge s n c = true

/-- `l` is a consecutive chain of removable edges hanging off `p`:
`p → l₀ → l₁ → ⋯`. -/
def succChain (s : GraphState) : Nat → List Nat → Prop
  | _, [] => True
  | p, c :: rest => removableEdge s p c = true ∧ succChain s c rest

/-- Invariant of the coalescing loop of `improveTree`: every replacement
entry is a nonempty chain of removable edges hanging off its key, keys are
distinct, and every chain-parent node is either a key or an interior
element of some value list. -/
def coalInv (s : GraphState) (rs : List (Nat × List Nat)) : Prop :=
  (∀ e ∈ rs, e.2 ≠ [] ∧ succChain s e.1 e.2) ∧
  (rs.map (·.1)).Nodup ∧
  (∀ n, hasRemOut s n → n ∈ rs.map (·.1) ∨ ∃ e ∈ rs, n ∈ e.2.dropLast)

/-- Child with both a parameter slot and an input slot named after the
rule target `X` (rules map `P ↦ X`). -/
def paramTargetChild : QAlgorithm :=
  { (default : QAlgorithm) with
      props := [("par_X", some 0), ("algin_X", none)],
      propagationRules := [("P", "X")] }

/-- A branching tree: node 0 has two children 1 and 2; the only removable
chain is `1 → 3 → 4`, whose single interior node is 3. -/
def sBranch : GraphState :=
  [ { (default : QAlgorithm) with descendants := [(1, false), (2, false)] },
    { (default : QAlgorithm) with ancestors := [(0, false)], descendants := [(3, false)] },
    { (default : QAlgorithm) with ancestors := [(0, false)] },
    { (default : QAlgorithm) with ancestors := [(1, false)], descendants := [(4, false)] },
    { (default : QAlgorithm) with ancestors := [(3, false)] } ]

/-! Theorems.  General lemmas come first, then one theorem per claim
(witnesses and counterexamples where required). -/

/-- Non-empty rule values imply the multimap contains the key. -/
theorem rulesContains_of_values (rules : List (String × String)) (k : String)
    (h : rulesValues rules k ≠ []) : rulesContains rules k = true := by
  induction rules with
  | nil => simp [rulesValues] at h
  | cons p rest ih =>
    cases hpk : p.1 == k with
    | true => simp [rulesContains, List.any_cons, hpk]
    | false =>
      have h2 : rulesValues rest k ≠ [] := by
        simpa [rulesValues, List.filter_cons, hpk] using h
      simpa [rulesContains, List.any_cons, hpk] using ih h2

/-- C4: when a finished parent propagates a slot with base name `s` into a
child, the target resolves to `s` itself when the child's rules do not
mention `s`, to the single mapped value when the rules hold exactly one
value for `s`, and otherwise to the first value among the matches whose
string contains the parent's object name (`QAlgorithm::getInput`,
QAlgorithm.cpp lines 209-228). -/
theorem C4_rule_resolution (rules : List (String × String)) (pObj base : String) :
    (rulesContains rules base = false → childBaseName rules pObj base = base)
    ∧ (∀ t, rulesValues rules base = [t] → childBaseName rules pObj base = t)
    ∧ (1 < (rulesValues rules base).length →
        ∀ m ms,
          (rulesValues rules base).filter (fun v => strContains v pObj) = m :: ms →
          childBaseName rules pObj base = m) := by
  refine ⟨fun h => ?_, fun t ht => ?_, fun hlen m ms hfil => ?_⟩
  · simp [childBaseName, h]
  · have hc : rulesContains rules base = true :=
      rulesContains_of_values rules base (by simp [ht])
    simp [childBaseName, hc, ht]
  · have hc : rulesContains rules base = true :=
      rulesContains_of_values rules base
        (by intro h0; rw [h0] at hlen; simp at hlen)
    simp [childBaseName, hc, hlen, hfil]

/-- Witness for C4: two rules for base `N`; the parent object name `gen`
selects the first matching value `Agen`. -/
theorem C4_rule_resolution_witness :
    childBaseName [("N", "Agen"), ("N", "Bo")] "gen" "N" = "Agen" :=
  (C4_rule_resolution [("N", "Agen"), ("N", "Bo")] "gen" "N").2.2
    (by decide) "Agen" [] (by decide)

/-- C1: fails on the code.  On the two-node chain `0 → 1`, a single
`serialExecution` invocation on node 1 executes node 1's `run` twice: the
readiness walk runs node 0, whose propagation dispatches node 1, and the
initial `serialExecution` then unconditionally runs node 1 again
(QAlgorithm.cpp lines 283-301 have no started-guard on the node itself). -/
theorem C1_serial_runs_node_twice :
    (getN (serialExecution 20 runChain sChain2 1) 1).runCount = 2 ∧
    (getN (serialExecution 20 runChain sChain2 1) 0).runCount = 1 := by decide

/-- C2: fails on the code.  On the three-node chain `0 → 1 → 2` with the
deterministic copy pipeline, `parallelExecution` leaves node 1's output
slot `algout_Y` holding `1`, while `serialExecution` re-runs node 1 after
its inputs were cleared, leaving `algout_Y` empty. -/
theorem C2_parallel_serial_outputs_differ :
    propGet (getN (parallelExecution 20 runChain sChain3 2) 1).props "algout_Y" = some 1 ∧
    propGet (getN (serialExecution 20 runChain sChain3 2) 1).props "algout_Y" = none ∧
    (getN (parallelExecution 20 runChain sChain3 2) 1).finished = true ∧
    (getN (serialExecution 20 runChain sChain3 2) 1).finished = true := by decide

/-- C3: fails on the code.  Node 0 has `KeepInput = false` and a filled
input slot; its descendant node 1 has `KeepInput = true`.  After node 0
finishes and its output has been transferred, node 0's input slot still
holds its value and the edge is still present: `propagateExecution`
consults the descendant's `KeepInput`, not the node's own
(QAlgorithm.cpp line 165). -/
theorem C3_descendant_flag_decides_clearing :
    (getN sKeep 0).keepInput = false ∧
    (getN (serialExecution 20 runKeep sKeep 0) 0).finished = true ∧
    propGet (getN (serialExecution 20 runKeep sKeep 0) 1).props "algin_O" = some 7 ∧
    propGet (getN (serialExecution 20 runKeep sKeep 0) 0).props "algin_I" = some 5 ∧
    checkConnection (serialExecution 20 runKeep sKeep 0) 0 1 = true := by decide

/-- C10: `abort` only emits `raise` carrying the given message (defaulting
to "Unknown Error"), and leaves the whole graph state — flags, completion
maps and slots of every node — unchanged. -/
theorem C10_abort_emits_raise_only (s : GraphState) (i : Nat) (msg : Option String) :
    (abortAlg s i msg).1 = s ∧
    (abortAlg s i msg).2 = [(i, msg.getD "Unknown Error")] ∧
    (abortAlg s i none).2 = [(i, "Unknown Error")] :=
  ⟨rfl, rfl, rfl⟩

/-- Counterexample to C7: a node that has just emitted `raise` via `abort`
is still dispatched — `serialExecution` invokes its `run` exactly as if it
had never raised. -/
theorem C7_raised_node_still_runs :
    (abortAlg sLone 0 none).2 = [(0, "Unknown Error")] ∧
    (getN (serialExecution 3 runNoop (abortAlg sLone 0 none).1 0) 0).runCount = 1 ∧
    (getN (serialExecution 3 runNoop (abortAlg sLone 0 none).1 0) 0).started = true := by
  decide

/-- C7 (amended): `abort` only emits `raise` and leaves the scheduler state
untouched, so none of `serialExecution`, `parallelExecution` and
`propagateExecution` distinguishes a node that has raised from one that
has not: a raised node is dispatched exactly as before. -/
theorem C7_amended_abort_does_not_gate_dispatch (s : GraphState) (i j fuel : Nat)
    (msg : Option String) (runI : RunImpl) :
    serialExecution fuel runI (abortAlg s i msg).1 j = serialExecution fuel runI s j ∧
    parallelExecution fuel runI (abortAlg s i msg).1 j = parallelExecution fuel runI s j ∧
    propagateExecution fuel runI (abortAlg s i msg).1 j = propagateExecution fuel runI s j ∧
    (abortAlg s i msg).1 = s :=
  ⟨rfl, rfl, rfl, rfl⟩

/-- If no child property matches the resolved target, the inner transfer
loop of `getInput` leaves the child's properties untouched. -/
theorem getInputInner_id (pv : QVar) (t : String) (cps : List (String × QVar))
    (h : ∀ p ∈ cps, p.1 ≠ QA_IN ++ t ∧ p.1 ≠ QA_PAR ++ t) :
    getInputInner pv t cps = some cps := by
  induction cps with
  | nil => rfl
  | cons p rest ih =>
    obtain ⟨cn, cv⟩ := p
    have hp := h (cn, cv) (List.mem_cons_self _ _)
    have hr := fun q hq => h q (List.mem_cons_of_mem _ hq)
    simp [getInputInner, hp.1, hp.2, ih hr]

/-- A parent property table made only of parameters none of which is
mentioned in the child's rules transfers nothing: the whole loop of
`getInput` skips every slot. -/
theorem getInputLoop_skip_params (pObj : String) (child : QAlgorithm)
    (ps : List (String × QVar))
    (h : ∀ p ∈ ps, strStartsWith p.1 QA_OUT = false ∧ strStartsWith p.1 QA_PAR = true ∧
          rulesContains child.propagationRules (p.1.drop QA_PAR.length) = false) :
    getInputLoop pObj ps child = (child, true) := by
  induction ps with
  | nil => rfl
  | cons p rest ih =>
    obtain ⟨pname, pv⟩ := p
    obtain ⟨h1, h2, h3⟩ := h (pname, pv) (List.mem_cons_self _ _)
    have hr := fun q hq => h q (List.mem_cons_of_mem _ hq)
    simp [getInputLoop, h1, h2, h3, ih hr]

/-- Counterexample to C5: the child's rules mention the parameter base
name `P` (mapping it to `X`), yet nothing is transferred, because the
child has no slot named `X` — the claimed "if and only if" fails in the
"if" direction. -/
theorem C5_rule_without_slot_not_transferred :
    rulesContains unmatchedChild.propagationRules "P" = true ∧
    (getInput unmatchedChild (paramParent 7)).1 = unmatchedChild ∧
    (getInput unmatchedChild (paramParent 7)).2 = true := by decide

/-- Counterexample to C6: the parent's first output slot `algout_A` holds
an invalid value and fails to transfer; `getInput` returns false at once,
so the parent's remaining valid slot `algout_B` is *not* transferred to
the matching child slot — the transfer of the remaining slots does not
continue. -/
theorem C6_failed_slot_stops_transfer :
    propGet invalidFirstParent.props "algout_B" = some 3 ∧
    (getInput twoInputChild invalidFirstParent).2 = false ∧
    (getInput twoInputChild invalidFirstParent).1 = twoInputChild ∧
    propGet (getInput twoInputChild invalidFirstParent).1.props "algin_B" = none := by
  decide

/-- C6 (amended): a slot whose resolved target does not exist on the child
is skipped and the transfer continues with the parent's remaining slots;
but a slot whose value fails to transfer makes `getInput` return false at
once, abandoning the remaining slots; either way the failure is not fatal
to the child, which is still dispatched and runs (the caller
`propagateExecution` ignores the result of `getInput`). -/
theorem C6_amended_transfer_semantics :
    (∀ (pObj : String) (child : QAlgorithm) (pname : String) (pv : QVar)
        (rest : List (String × QVar)),
        (∀ p ∈ child.props,
            p.1 ≠ QA_IN ++ childBaseName child.propagationRules pObj (pname.drop QA_OUT.length) ∧
            p.1 ≠ QA_PAR ++ childBaseName child.propagationRules pObj (pname.drop QA_OUT.length) ∧
            p.1 ≠ QA_IN ++ childBaseName child.propagationRules pObj (pname.drop QA_PAR.length) ∧
            p.1 ≠ QA_PAR ++ childBaseName child.propagationRules pObj (pname.drop QA_PAR.length)) →
        getInputLoop pObj ((pname, pv) :: rest) child = getInputLoop pObj rest child)
    ∧ (∀ (pObj : String) (child : QAlgorithm) (pname : String) (pv : QVar)
        (rest : List (String × QVar)),
        strStartsWith pname QA_OUT = true → strStartsWith pname QA_PAR = false →
        getInputInner pv (childBaseName child.propagationRules pObj (pname.drop QA_OUT.length))
          child.props = none →
        getInputLoop pObj ((pname, pv) :: rest) child = (child, false))
    ∧ ((getN (serialExecution 20 runNoop sPartial 0) 1).runCount = 1 ∧
       (getN (serialExecution 20 runNoop sPartial 0) 1).finished = true ∧
       propGet (getN (serialExecution 20 runNoop sPartial 0) 1).props "algin_B" = none) := by
  refine ⟨?_, ?_, by decide⟩
  · intro pObj child pname pv rest h
    have hid1 : getInputInner pv
        (childBaseName child.propagationRules pObj (pname.drop QA_OUT.length)) child.props
        = some child.props :=
      getInputInner_id _ _ _ (fun p hp => ⟨(h p hp).1, (h p hp).2.1⟩)
    have hid2 : getInputInner pv
        (childBaseName child.propagationRules pObj (pname.drop QA_PAR.length)) child.props
        = some child.props :=
      getInputInner_id _ _ _ (fun p hp => ⟨(h p hp).2.2.1, (h p hp).2.2.2⟩)
    cases hout : strStartsWith pname QA_OUT <;> cases hpar : strStartsWith pname QA_PAR <;>
      simp [getInputLoop, hout, hpar, hid1, hid2]
  · intro pObj child pname pv rest hout hpar hfail
    simp [getInputLoop, hout, hpar, hfail]

/-- Witness for C6 (amended): the parent's first slot fails to read, so
the loop stops at once with result false and an unchanged child. -/
theorem C6_amended_transfer_semantics_witness :
    getInputLoop "" [("algout_A", (none : QVar)), ("algout_B", some 3)] twoInputChild
      = (twoInputChild, false) :=
  C6_amended_transfer_semantics.2.1 "" twoInputChild "algout_A" none
    [("algout_B", some 3)] (by decide) (by decide) (by decide)

/-- `updN` preserves the number of nodes. -/
theorem length_updN (s : GraphState) (i : Nat) (f : QAlgorithm → QAlgorithm) :
    (updN s i f).length = s.length := by
  induction s generalizing i with
  | nil => rfl
  | cons n rest ih =>
    cases i with
    | zero => rfl
    | succ j => simpa [updN] using ih j

/-- Reading after an in-place update. -/
theorem getN_updN (s : GraphState) (i j : Nat) (f : QAlgorithm → QAlgorithm) :
    getN (updN s i f) j = if i = j ∧ j < s.length then f (getN s j) else getN s j := by
  induction s generalizing i j with
  | nil => simp [updN, getN]
  | cons n rest ih =>
    cases i with
    | zero =>
      cases j with
      | zero => simp [updN, getN]
      | succ j2 => simp [updN, getN]
    | succ i2 =>
      cases j with
      | zero => simp [updN, getN]
      | succ j2 =>
        have := ih i2 j2
        simp only [updN, getN, List.getD_cons_succ] at this ⊢
        rw [this]
        by_cases hij : i2 = j2 <;> simp [hij, Nat.succ_lt_succ_iff]

/-- `mapContains` is membership among the keys. -/
theorem mapContains_iff (m : List (Nat × Bool)) (x : Nat) :
    mapContains m x = true ↔ x ∈ m.map (·.1) := by
  simp only [mapContains, List.any_eq_true, List.mem_map, beq_iff_eq]

/-- Keys after `QMap::operator[] =`. -/
theorem mem_keys_mapSet (m : List (Nat × Bool)) (k x : Nat) (v : Bool) :
    x ∈ (mapSet m k v).map (·.1) ↔ (x = k ∨ x ∈ m.map (·.1)) := by
  induction m with
  | nil => simp [mapSet]
  | cons p rest ih =>
    obtain ⟨a, b⟩ := p
    simp only [mapSet]
    by_cases h1 : k < a
    · rw [if_pos h1]
      simp only [List.map_cons, List.mem_cons]
    · rw [if_neg h1]
      by_cases h2 : k = a
      · rw [if_pos h2]
        subst h2
        simp only [List.map_cons, List.mem_cons]
        tauto
      · rw [if_neg h2]
        simp only [List.map_cons, List.mem_cons, ih]
        tauto

/-- Keys after `QMap::remove`. -/
theorem mem_keys_mapRemove (m : List (Nat × Bool)) (k x : Nat) :
    x ∈ (mapRemove m k).map (·.1) ↔ (x ≠ k ∧ x ∈ m.map (·.1)) := by
  simp only [mapRemove, List.mem_map, List.mem_filter, ne_eq, decide_not,
    Bool.not_eq_eq_eq_not, Bool.not_true, decide_eq_false_iff_not]
  constructor
  · rintro ⟨p, ⟨pm, hk⟩, rfl⟩
    exact ⟨hk, p, pm, rfl⟩
  · rintro ⟨hxk, p, pm, rfl⟩
    exact ⟨p, ⟨pm, hxk⟩, rfl⟩

/-- The descendants map of each node after `setConnection`. -/
theorem getN_setConnection_desc (s : GraphState) (a d x : Nat) :
    (getN (setConnection s a d) x).descendants =
      if a = x ∧ x < s.length
      then mapSet (getN s x).descendants d (getN s d).finished
      else (getN s x).descendants := by
  simp only [setConnection]
  rw [getN_updN, getN_updN, length_updN]
  by_cases hx : x < s.length
  · by_cases ha : a = x <;> by_cases hd : d = x <;> simp [ha, hd, hx]
  · simp [hx]

/-- The ancestors map of each node after `setConnection`. -/
theorem getN_setConnection_anc (s : GraphState) (a d x : Nat) :
    (getN (setConnection s a d) x).ancestors =
      if d = x ∧ x < s.length
      then mapSet (getN s x).ancestors a (getN s a).finished
      else (getN s x).ancestors := by
  simp only [setConnection]
  rw [getN_updN, getN_updN, length_updN]
  by_cases hx : x < s.length
  · by_cases ha : a = x <;> by_cases hd : d = x <;> simp [ha, hd, hx]
  · simp [hx]

/-- The descendants map of each node after `closeConnection`. -/
theorem getN_closeConnection_desc (s : GraphState) (a d x : Nat) :
    (getN (closeConnection s a d) x).descendants =
      if a = x ∧ x < s.length
      then mapRemove (getN s x).descendants d
      else (getN s x).descendants := by
  simp only [closeConnection]
  rw [getN_updN, getN_updN, length_updN]
  by_cases hx : x < s.length
  · by_cases ha : a = x <;> by_cases hd : d = x <;> simp [ha, hd, hx]
  · simp [hx]

/-- The ancestors map of each node after `closeConnection`. -/
theorem getN_closeConnection_anc (s : GraphState) (a d x : Nat) :
    (getN (closeConnection s a d) x).ancestors =
      if d = x ∧ x < s.length
      then mapRemove (getN s x).ancestors a
      else (getN s x).ancestors := by
  simp only [closeConnection]
  rw [getN_updN, getN_updN, length_updN]
  by_cases hx : x < s.length
  · by_cases ha : a = x <;> by_cases hd : d = x <;> simp [ha, hd, hx]
  · simp [hx]

/-- `setConnection` preserves the symmetry of the adjacency maps. -/
theorem symmetricGraph_setConnection (s : GraphState) (a d : Nat)
    (h : symmetricGraph s) : symmetricGraph (setConnection s a d) := by
  have hL : (setConnection s a d).length = s.length := by
    simp [setConnection, length_updN]
  intro x hx y hy
  rw [hL] at hx hy
  have hbase := h x hx y hy
  rw [mapContains_iff, mapContains_iff] at hbase
  rw [mapContains_iff, mapContains_iff, getN_setConnection_desc, getN_setConnection_anc]
  by_cases h1 : a = x ∧ x < s.length <;> by_cases h2 : d = y ∧ y < s.length
  · simp only [if_pos h1, if_pos h2, mem_keys_mapSet]
    exact ⟨fun _ => Or.inl h1.1.symm, fun _ => Or.inl h2.1.symm⟩
  · simp only [if_pos h1, if_neg h2, mem_keys_mapSet]
    have hyd : ¬ (y = d) := fun hyd => h2 ⟨hyd.symm, hy⟩
    constructor
    · rintro (hc | hmem)
      · exact absurd hc hyd
      · exact hbase.1 hmem
    · intro hmem
      exact Or.inr (hbase.2 hmem)
  · simp only [if_neg h1, if_pos h2, mem_keys_mapSet]
    have hxa : ¬ (x = a) := fun hxa => h1 ⟨hxa.symm, hx⟩
    constructor
    · intro hmem
      exact Or.inr (hbase.1 hmem)
    · rintro (hc | hmem)
      · exact absurd hc hxa
      · exact hbase.2 hmem
  · simp only [if_neg h1, if_neg h2]
    exact hbase

/-- `closeConnection` preserves the symmetry of the adjacency maps. -/
theorem symmetricGraph_closeConnection (s : GraphState) (a d : Nat)
    (h : symmetricGraph s) : symmetricGraph (closeConnection s a d) := by
  have hL : (closeConnection s a d).length = s.length := by
    simp [closeConnection, length_updN]
  intro x hx y hy
  rw [hL] at hx hy
  have hbase := h x hx y hy
  rw [mapContains_iff, mapContains_iff] at hbase
  rw [mapContains_iff, mapContains_iff, getN_closeConnection_desc, getN_closeConnection_anc]
  by_cases h1 : a = x ∧ x < s.length <;> by_cases h2 : d = y ∧ y < s.length
  · simp only [if_pos h1, if_pos h2, mem_keys_mapRemove]
    constructor
    · rintro ⟨hyd, _⟩
      exact absurd h2.1.symm hyd
    · rintro ⟨hxa, _⟩
      exact absurd h1.1.symm hxa
  · simp only [if_pos h1, if_neg h2, mem_keys_mapRemove]
    have hyd : ¬ (y = d) := fun hyd => h2 ⟨hyd.symm, hy⟩
    constructor
    · rintro ⟨_, hmem⟩
      exact hbase.1 hmem
    · intro hmem
      exact ⟨hyd, hbase.2 hmem⟩
  · simp only [if_neg h1, if_pos h2, mem_keys_mapRemove]
    have hxa : ¬ (x = a) := fun hxa => h1 ⟨hxa.symm, hx⟩
    constructor
    · intro hmem
      exact ⟨hxa, hbase.1 hmem⟩
    · rintro ⟨_, hmem⟩
      exact hbase.2 hmem
  · simp only [if_neg h1, if_neg h2]
    exact hbase

/-- C8: after any sequence of `setConnection` and `closeConnection` calls
starting from a symmetric graph (in particular from freshly created,
unconnected nodes), the adjacency maps are symmetric: `d` is in `a`'s
descendants map iff `a` is in `d`'s ancestors map. -/
theorem C8_connection_symmetry (ops : List (Bool × Nat × Nat)) (s : GraphState)
    (h : symmetricGraph s) : symmetricGraph (applyConnectionOps s ops) := by
  induction ops generalizing s with
  | nil => exact h
  | cons op rest ih =>
    obtain ⟨b, a, d⟩ := op
    cases b
    · exact ih (closeConnection s a d) (symmetricGraph_closeConnection s a d h)
    · exact ih (setConnection s a d) (symmetricGraph_setConnection s a d h)

/-- Witness for C8: three fresh nodes, two connects and a disconnect. -/
theorem C8_connection_symmetry_witness :
    symmetricGraph (applyConnectionOps [default, default, default]
      [(true, 0, 1), (true, 2, 1), (false, 0, 1)]) :=
  C8_connection_symmetry [(true, 0, 1), (true, 2, 1), (false, 0, 1)]
    [default, default, default] (by unfold symmetricGraph; decide)

/-- `natSeq a (n+1)` ends in `a + n`. -/
theorem natSeq_succ_append (a n : Nat) : natSeq a (n + 1) = natSeq a n ++ [a + n] := by
  induction n generalizing a with
  | zero => simp [natSeq]
  | succ n ih =>
    calc natSeq a (n + 2) = a :: natSeq (a + 1) (n + 1) := rfl
    _ = a :: (natSeq (a + 1) n ++ [a + 1 + n]) := by rw [ih]
    _ = natSeq a (n + 1) ++ [a + (n + 1)] := by
        rw [show a + 1 + n = a + (n + 1) from by omega]
        rfl

/-- The last element of a nonempty index sequence. -/
theorem natSeq_getLast (a n : Nat) : (natSeq a (n + 1)).getLast? = some (a + n) := by
  rw [natSeq_succ_append]
  simp

/-- Membership in an index sequence. -/
theorem mem_natSeq (a n x : Nat) : x ∈ natSeq a n ↔ a ≤ x ∧ x < a + n := by
  induction n generalizing a with
  | zero => simp [natSeq]
  | succ n ih => simp [natSeq, ih]; omega

/-- Length of an index sequence. -/
theorem natSeq_length (a n : Nat) : (natSeq a n).length = n := by
  induction n generalizing a with
  | zero => rfl
  | succ n ih => simp [natSeq, ih]

/-- Dropping the last element of an index sequence. -/
theorem natSeq_dropLast (a n : Nat) : (natSeq a (n + 1)).dropLast = natSeq a n := by
  rw [natSeq_succ_append]
  simp

/-- `List.range` as an index sequence. -/
theorem range_eq_natSeq (n : Nat) : List.range n = natSeq 0 n := by
  induction n with
  | zero => rfl
  | succ n ih =>
    rw [List.range_succ, ih, natSeq_succ_append, Nat.zero_add]

/-- The nodes of a path graph. -/
theorem getN_pathState (k i : Nat) (h : i < k) : getN (pathState k) i = pathNode k i := by
  simp [getN, pathState, List.getD_eq_getElem?_getD, List.getElem?_map,
    List.getElem?_range, h]

/-- Every edge of a path graph is removable: the parent has exactly one
descendant and the child exactly one ancestor. -/
theorem removable_path (k i : Nat) (h : i + 1 < k) :
    isRemovableConnection (pathState k) i (i + 1) = true := by
  have hi : i < k := by omega
  have h1 : getN (pathState k) i = pathNode k i := getN_pathState k i hi
  have h2 : getN (pathState k) (i + 1) = pathNode k (i + 1) := getN_pathState k (i + 1) h
  have hne : ¬ ((i:Nat) + 1 = 0) := by omega
  simp only [isRemovableConnection, checkConnection, h1, h2, pathNode, if_pos h,
    if_neg hne]
  have hsub : i + 1 - 1 = i := by omega
  rw [hsub]
  have hcontra : ∀ (l : List (Nat × Bool)),
      (∀ p ∈ l, p.1 ≠ i) → mapContains l i = false := by
    intro l hl
    rw [Bool.eq_false_iff]
    intro hc
    rw [mapContains_iff] at hc
    obtain ⟨p, pm, hp⟩ := List.mem_map.1 hc
    exact hl p pm hp
  have hfirst : mapContains (if i + 1 + 1 < k then [(i + 1 + 1, false)] else []) i = false := by
    by_cases h3 : i + 1 + 1 < k
    · rw [if_pos h3]
      refine hcontra _ ?_
      intro p hp
      simp only [List.mem_singleton] at hp
      subst hp
      intro hc
      have hc2 : i + 1 + 1 = i := hc
      omega
    · rw [if_neg h3]
      rfl
  rw [hfirst]
  simp [mapContains]

/-- Appending under a fresh key places the new entry at the end. -/
theorem appendRep_not_mem (rs : List (Nat × List Nat)) (k : Nat) (l : List Nat)
    (h : ∀ p ∈ rs, p.1 ≠ k) : appendRep rs k l = rs ++ [(k, l)] := by
  induction rs with
  | nil => rfl
  | cons p rest ih =>
    obtain ⟨a, b⟩ := p
    have ha : a ≠ k := h (a, b) (List.mem_cons_self _ _)
    simp only [appendRep, if_neg ha, List.cons_append]
    rw [ih (fun q hq => h q (List.mem_cons_of_mem _ hq))]

/-- The outer replacement-construction loop splits over list append. -/
theorem buildRepsFrom_append (s : GraphState) (l1 l2 : List (Nat × List Nat))
    (rs : List (Nat × List Nat)) :
    buildRepsFrom s (l1 ++ l2) rs = buildRepsFrom s l2 (buildRepsFrom s l1 rs) := by
  induction l1 generalizing rs with
  | nil => rfl
  | cons p rest ih =>
    obtain ⟨ptr, children⟩ := p
    simp only [List.cons_append, buildRepsFrom]
    exact ih _

/-- Replacement construction along an interior segment of a path graph:
each index `a ≤ b < a + n` contributes the entry `(b, [b+1])`. -/
theorem buildRepsFrom_path (k : Nat) : ∀ (n a : Nat) (rs : List (Nat × List Nat)),
    a + n + 1 ≤ k → (∀ p ∈ rs, p.1 < a) →
    buildRepsFrom (pathState k)
        ((natSeq a n).map (fun b => (b, mapKeys (getN (pathState k) b).descendants))) rs
      = rs ++ (natSeq a n).map (fun b => (b, [b + 1])) := by
  intro n
  induction n with
  | zero =>
    intro a rs h1 h2
    simp [buildRepsFrom, natSeq]
  | succ n ih =>
    intro a rs h1 h2
    have hak : a + 1 < k := by omega
    have hdesc : mapKeys (getN (pathState k) a).descendants = [a + 1] := by
      rw [getN_pathState k a (by omega)]
      simp [pathNode, mapKeys, hak]
    have hrem : isRemovableConnection (pathState k) a (a + 1) = true :=
      removable_path k a hak
    simp only [natSeq, List.map_cons, buildRepsFrom, buildRepsChildren, hdesc, hrem,
      if_true]
    rw [appendRep_not_mem rs a [a + 1] (fun p hp => Nat.ne_of_lt (h2 p hp))]
    rw [ih (a + 1) (rs ++ [(a, [a + 1])]) (by omega) ?keys]
    case keys =>
      intro p hp
      rcases List.mem_append.1 hp with hp | hp
      · exact Nat.lt_trans (h2 p hp) (Nat.lt_succ_self a)
      · simp only [List.mem_singleton] at hp
        subst hp
        exact Nat.lt_succ_self a
    simp [List.append_assoc]

/-- The replacement map of `improveTree` on the path graph with `m + 1`
nodes: one entry per edge, in order. -/
theorem buildReplacements_path (m : Nat) :
    buildReplacements (pathState (m + 1)) = (natSeq 0 m).map (fun b => (b, [b + 1])) := by
  have hlen : (pathState (m + 1)).length = m + 1 := by simp [pathState]
  simp only [buildReplacements, flattenTree, hlen, range_eq_natSeq]
  rw [natSeq_succ_append, Nat.zero_add, List.map_append, buildRepsFrom_append]
  rw [buildRepsFrom_path (m + 1) m 0 [] (by omega) (by simp)]
  have hdesc : mapKeys (getN (pathState (m + 1)) m).descendants = [] := by
    rw [getN_pathState (m + 1) m (by omega)]
    simp [pathNode, mapKeys]
  simp [buildRepsFrom, buildRepsChildren, hdesc]

/-- The coalescing loop of `improveTree` on a chain: the head entry
`(0, [1..j+1])` repeatedly absorbs the next segment until the whole chain
`[1..n+j+1]` hangs off the head key. -/
theorem coalesce_path : ∀ (n j fuel : Nat), n ≤ fuel →
    coalesce fuel
        ((0, natSeq 1 (j + 1)) :: (natSeq (j + 1) n).map (fun a => (a, [a + 1])))
      = [(0, natSeq 1 (n + j + 1))] := by
  intro n
  induction n with
  | zero =>
    intro j fuel _
    have hne1 : ¬ ((0:Nat) = j + 1) := by omega
    have hlast : (natSeq 1 (j + 1)).getLast? = some (j + 1) := by
      rw [natSeq_getLast, Nat.add_comm]
    rw [Nat.zero_add]
    cases fuel with
    | zero => rfl
    | succ fu =>
      simp [coalesce, coalesceFind, hlast, lookupRep, hne1,
        show natSeq (j + 1) 0 = [] from rfl]
  | succ n ih =>
    intro j fuel hf
    obtain ⟨fu, rfl⟩ : ∃ fu, fuel = fu + 1 := ⟨fuel - 1, by omega⟩
    have hne1 : ¬ ((0:Nat) = j + 1) := by omega
    have hlast : (natSeq 1 (j + 1)).getLast? = some (j + 1) := by
      rw [natSeq_getLast, Nat.add_comm]
    have hstep : (natSeq (j + 1) (n + 1)).map (fun a => (a, [a + 1]))
        = (j + 1, [j + 2]) :: (natSeq (j + 2) n).map (fun a => (a, [a + 1])) := rfl
    rw [hstep]
    simp only [coalesce, coalesceFind, hlast, lookupRep, if_neg hne1, if_pos rfl,
      Option.isSome_some, if_true, removeRep, appendRep, Option.getD_some]
    have happend : natSeq 1 (j + 1) ++ [j + 2] = natSeq 1 (j + 2) := by
      have h := natSeq_succ_append 1 (j + 1)
      rw [show 1 + (j + 1) = j + 2 from by omega] at h
      exact h.symm
    rw [happend]
    have hres := ih (j + 1) fu (by omega)
    rw [show n + (j + 1) + 1 = n + 1 + j + 1 from by omega] at hres
    exact hres

/-- The effect on the `ParallelExecution` flags of folding the
serialisation update over a list of node indices. -/
theorem parallelFlag_foldSet (l : List Nat) (s : GraphState) (i : Nat) :
    (getN (l.foldl (fun s n => updN s n (fun q => { q with parallelFlag := false })) s) i).parallelFlag
      = if i ∈ l ∧ i < s.length then false else (getN s i).parallelFlag := by
  induction l generalizing s with
  | nil => simp
  | cons n rest ih =>
    simp only [List.foldl_cons, ih, length_updN, getN_updN, List.mem_cons]
    by_cases hlen : i < s.length
    · by_cases hni : n = i
      · subst hni
        simp [hlen]
      · have hin : ¬ (i = n) := fun hc => hni hc.symm
        by_cases hmem : i ∈ rest <;> simp [hni, hin, hmem, hlen]
    · simp [hlen]

/-- Counterexample to C9: on the two-node path the single edge is
removable, so the coalesced chain is `[0, 1]` and the claim requires node
0 (every node except the last) to have `ParallelExecution = false`; but
`improveTree` only serialises the value-list of each replacement minus its
last element, so the chain head keeps its flag and nothing changes. -/
theorem C9_chain_head_keeps_flag :
    isRemovableConnection (pathState 2) 0 1 = true ∧
    (getN (improveTree (pathState 2)) 0).parallelFlag = true ∧
    (getN (improveTree (pathState 2)) 1).parallelFlag = true := by decide

/-- Writing a valid parent value through the inner loop of `getInput`
updates every child property named `algin_<t>` or `par_<t>` and leaves
the rest alone. -/
theorem getInputInner_writeAll (v : Nat) (t : String) (cps : List (String × QVar)) :
    getInputInner (some v) t cps
      = some (cps.map (fun p =>
          if p.1 = QA_IN ++ t ∨ p.1 = QA_PAR ++ t then (p.1, some v) else p)) := by
  induction cps with
  | nil => rfl
  | cons p rest ih =>
    obtain ⟨cn, cv⟩ := p
    by_cases hc : cn = QA_IN ++ t ∨ cn = QA_PAR ++ t <;>
      simp [getInputInner, hc, ih]

/-- The inner transfer loop never renames properties. -/
theorem writeAll_names (v : Nat) (t : String) (cps : List (String × QVar)) :
    (cps.map (fun p =>
        if p.1 = QA_IN ++ t ∨ p.1 = QA_PAR ++ t then (p.1, some v) else p)).map (·.1)
      = cps.map (·.1) := by
  induction cps with
  | nil => rfl
  | cons p rest ih =>
    obtain ⟨cn, cv⟩ := p
    by_cases hc : cn = QA_IN ++ t ∨ cn = QA_PAR ++ t <;> simp [hc, ih]

/-- After the inner transfer loop every existing slot named `algin_<t>` or
`par_<t>` holds the transferred value. -/
theorem propGet_writeAll (v : Nat) (t name : String) (cps : List (String × QVar))
    (hname : name = QA_IN ++ t ∨ name = QA_PAR ++ t) (hmem : name ∈ cps.map (·.1)) :
    propGet (cps.map (fun p =>
        if p.1 = QA_IN ++ t ∨ p.1 = QA_PAR ++ t then (p.1, some v) else p)) name
      = some v := by
  induction cps with
  | nil => simp at hmem
  | cons p rest ih =>
    obtain ⟨cn, cv⟩ := p
    rw [List.map_cons]
    show propGet ((if cn = QA_IN ++ t ∨ cn = QA_PAR ++ t then (cn, some v) else (cn, cv))
        :: rest.map (fun p =>
            if p.1 = QA_IN ++ t ∨ p.1 = QA_PAR ++ t then (p.1, some v) else p))
        name = some v
    by_cases hcn : cn = name
    · subst hcn
      rw [if_pos hname]
      simp [propGet]
    · have hmem2 : name ∈ rest.map (·.1) := by
        rw [List.map_cons] at hmem
        rcases List.mem_cons.1 hmem with h | h
        · exact absurd (show cn = name from h.symm) hcn
        · exact h
      by_cases hc : cn = QA_IN ++ t ∨ cn = QA_PAR ++ t
      · rw [if_pos hc]
        simp only [propGet, if_neg hcn]
        exact ih hmem2
      · rw [if_neg hc]
        simp only [propGet, if_neg hcn]
        exact ih hmem2

/-- Deleting an unruled parameter slot from *any* parent property table —
whatever outputs and other slots surround it — does not change the result
of `getInput`: such a parameter is never propagated. -/
theorem getInputLoop_unruled_param (pObj pname : String) (pv : QVar)
    (hout : strStartsWith pname QA_OUT = false)
    (hpar : strStartsWith pname QA_PAR = true) :
    ∀ (pre rest : List (String × QVar)) (child : QAlgorithm),
      rulesContains child.propagationRules (pname.drop QA_PAR.length) = false →
      getInputLoop pObj (pre ++ (pname, pv) :: rest) child
        = getInputLoop pObj (pre ++ rest) child := by
  intro pre
  induction pre with
  | nil =>
    intro rest child h
    simp [getInputLoop, hout, hpar, h]
  | cons q pre ih =>
    intro rest child h
    obtain ⟨qn, qv⟩ := q
    simp only [List.cons_append, getInputLoop]
    cases hq1 : strStartsWith qn QA_OUT with
    | true =>
      simp only [hq1, if_true]
      by_cases hg : strStartsWith qn QA_PAR ∧
          ¬ rulesContains child.propagationRules (qn.drop QA_OUT.length)
      · simp only [if_pos hg]
        exact ih rest child h
      · simp only [if_neg hg]
        cases hinn : getInputInner qv
            (childBaseName child.propagationRules pObj (qn.drop QA_OUT.length))
            child.props with
        | some ps =>
          simp only [hinn]
          exact ih rest { child with props := ps } h
        | none => simp only [hinn]
    | false =>
      cases hq2 : strStartsWith qn QA_PAR with
      | true =>
        simp only [hq1, hq2, if_true, Bool.false_eq_true, if_false, true_and]
        by_cases hg : ¬ rulesContains child.propagationRules (qn.drop QA_PAR.length)
        · simp only [if_pos hg]
          exact ih rest child h
        · simp only [if_neg hg]
          cases hinn : getInputInner qv
              (childBaseName child.propagationRules pObj (qn.drop QA_PAR.length))
              child.props with
          | some ps =>
            simp only [hinn]
            exact ih rest { child with props := ps } h
          | none => simp only [hinn]
      | false =>
        simp only [hq1, hq2, Bool.false_eq_true, if_false]
        exact ih rest child h

/-- C5 (amended): a parent's parameter slot is propagated *only if* the
descendant's rules mention its base name — deleting an unruled parameter
from any parent property table leaves `getInput` unchanged; when the
rules do mention the base name and resolve it to target `t`, a valid
parameter value is written to every existing `algin_<t>`/`par_<t>` slot
of the descendant; output slots, by contrast, transfer by default (no
rule needed). -/
theorem C5_amended_parameters_gated :
    (∀ (pObj pname : String) (pv : QVar) (pre rest : List (String × QVar))
        (child : QAlgorithm),
        strStartsWith pname QA_OUT = false → strStartsWith pname QA_PAR = true →
        rulesContains child.propagationRules (pname.drop QA_PAR.length) = false →
        getInputLoop pObj (pre ++ (pname, pv) :: rest) child
          = getInputLoop pObj (pre ++ rest) child)
    ∧ (∀ (pObj pname : String) (v : Nat) (rest : List (String × QVar))
        (child : QAlgorithm) (t : String),
        strStartsWith pname QA_OUT = false → strStartsWith pname QA_PAR = true →
        rulesContains child.propagationRules (pname.drop QA_PAR.length) = true →
        childBaseName child.propagationRules pObj (pname.drop QA_PAR.length) = t →
        ∃ child2 : QAlgorithm,
          getInputLoop pObj ((pname, some v) :: rest) child
            = getInputLoop pObj rest child2 ∧
          child2.propagationRules = child.propagationRules ∧
          child2.props.map (·.1) = child.props.map (·.1) ∧
          ∀ name, (name = QA_IN ++ t ∨ name = QA_PAR ++ t) →
            name ∈ child.props.map (·.1) → propGet child2.props name = some v)
    ∧ (∀ (v : Nat) (w : QVar),
        getInput (plainChild w) (outParent v) = (plainChild (some v), true)) := by
  refine ⟨?_, ?_, fun v w => rfl⟩
  · intro pObj pname pv pre rest child hout hpar h
    exact getInputLoop_unruled_param pObj pname pv hout hpar pre rest child h
  · intro pObj pname v rest child t hout hpar hcont hcbn
    refine ⟨{ child with props := child.props.map (fun p =>
        if p.1 = QA_IN ++ t ∨ p.1 = QA_PAR ++ t then (p.1, some v) else p) },
      ?_, rfl, writeAll_names v t child.props,
      fun name hname hmem => propGet_writeAll v t name child.props hname hmem⟩
    simp [getInputLoop, hout, hpar, hcont, hcbn, getInputInner_writeAll]

/-- Witness for C5 (amended): a parameter with rule entry `P ↦ X` is
written both to the child's `algin_X` input slot and to its `par_X`
parameter slot. -/
theorem C5_amended_parameters_gated_witness :
    ∃ child2 : QAlgorithm,
      getInputLoop "" [("par_P", some 7)] paramTargetChild
        = getInputLoop "" [] child2 ∧
      child2.propagationRules = paramTargetChild.propagationRules ∧
      child2.props.map (·.1) = paramTargetChild.props.map (·.1) ∧
      ∀ name, (name = QA_IN ++ "X" ∨ name = QA_PAR ++ "X") →
        name ∈ paramTargetChild.props.map (·.1) →
        propGet child2.props name = some 7 :=
  C5_amended_parameters_gated.2.1 "" "par_P" 7 [] paramTargetChild "X"
    (by decide) (by decide) (by decide) (by decide)

/-- Out-of-range indices dereference to the default (unconnected) node. -/
theorem getN_oob (s : GraphState) (i : Nat) (h : s.length ≤ i) :
    getN s i = default := by
  simp [getN, List.getD_eq_getElem?_getD, List.getElem?_eq_none h]

/-- A removable edge only relates nodes of the graph. -/
theorem removableEdge_lt (s : GraphState) (p c : Nat)
    (h : removableEdge s p c = true) : p < s.length ∧ c < s.length := by
  constructor
  · by_contra hp
    have hdef : getN s p = default := getN_oob s p (Nat.le_of_not_lt hp)
    simp [removableEdge, checkConnection, hdef, mapContains,
      show (default : QAlgorithm).descendants = [] from rfl] at h
  · by_contra hc
    have hdef : getN s c = default := getN_oob s c (Nat.le_of_not_lt hc)
    simp [removableEdge, checkConnection, hdef, mapContains,
      show (default : QAlgorithm).ancestors = [] from rfl] at h

/-- A list of length one containing `c` is `[c]`. -/
theorem singleton_of_length_one (l : List Nat) (c : Nat)
    (hlen : l.length = 1) (hmem : c ∈ l) : l = [c] := by
  cases l with
  | nil => simp at hmem
  | cons a rest =>
    cases rest with
    | nil =>
      rcases List.mem_singleton.1 hmem with rfl
      rfl
    | cons b rr => simp at hlen

/-- The parent end of a removable edge has exactly the one descendant. -/
theorem desc_keys_singleton (s : GraphState) (p c : Nat)
    (h : removableEdge s p c = true) :
    mapKeys (getN s p).descendants = [c] := by
  have h1 : mapContains (getN s p).descendants c = true := by
    simp only [removableEdge, checkConnection, Bool.and_eq_true] at h
    exact h.1.1.1
  have h2 : (getN s p).descendants.length = 1 := by
    simp only [removableEdge, Bool.and_eq_true, beq_iff_eq] at h
    exact h.1.2
  refine singleton_of_length_one _ c ?_ (mapContains_iff _ _ |>.1 h1)
  simp [mapKeys, h2]

/-- The child end of a removable edge has exactly the one ancestor. -/
theorem anc_keys_singleton (s : GraphState) (p c : Nat)
    (h : removableEdge s p c = true) :
    mapKeys (getN s c).ancestors = [p] := by
  have h1 : mapContains (getN s c).ancestors p = true := by
    simp only [removableEdge, checkConnection, Bool.and_eq_true] at h
    exact h.1.1.2
  have h2 : (getN s c).ancestors.length = 1 := by
    simp only [removableEdge, Bool.and_eq_true, beq_iff_eq] at h
    exact h.2
  refine singleton_of_length_one _ p ?_ (mapContains_iff _ _ |>.1 h1)
  simp [mapKeys, h2]

/-- A node has at most one outgoing removable edge. -/
theorem removable_succ_unique (s : GraphState) (p c c2 : Nat)
    (h1 : removableEdge s p c = true) (h2 : removableEdge s p c2 = true) :
    c = c2 := by
  have k1 := desc_keys_singleton s p c h1
  have k2 := desc_keys_singleton s p c2 h2
  rw [k1] at k2
  simpa using k2

/-- A node has at most one incoming removable edge. -/
theorem removable_pred_unique (s : GraphState) (p p2 c : Nat)
    (h1 : removableEdge s p c = true) (h2 : removableEdge s p2 c = true) :
    p = p2 := by
  have k1 := anc_keys_singleton s p c h1
  have k2 := anc_keys_singleton s p2 c h2
  rw [k1] at k2
  simpa using k2

/-- Every element of a chain is the child end of a removable edge. -/
theorem succChain_remIn (s : GraphState) :
    ∀ (l : List Nat) (p : Nat), succChain s p l → ∀ x ∈ l, hasRemIn s x := by
  intro l
  induction l with
  | nil => intro p _ x hx; simp at hx
  | cons c rest ih =>
    intro p hch x hx
    obtain ⟨hedge, hrest⟩ := hch
    rcases List.mem_cons.1 hx with rfl | hx2
    · exact ⟨p, (removableEdge_lt s p x hedge).1, hedge⟩
    · exact ih c hrest x hx2

/-- Every non-last element of a chain is the parent end of a removable
edge. -/
theorem succChain_dropLast_remOut (s : GraphState) :
    ∀ (l : List Nat) (p : Nat), succChain s p l → ∀ x ∈ l.dropLast, hasRemOut s x := by
  intro l
  induction l with
  | nil => intro p _ x hx; simp at hx
  | cons c rest ih =>
    intro p hch x hx
    obtain ⟨hedge, hrest⟩ := hch
    cases rest with
    | nil => simp at hx
    | cons r rr =>
      rcases List.mem_cons.1 (by simpa [List.dropLast] using hx) with rfl | hx2
      · exact ⟨r, (removableEdge_lt s x r hrest.1).2, hrest.1⟩
      · exact ih c hrest x hx2

/-- Chains concatenate across a shared endpoint. -/
theorem succChain_append (s : GraphState) (q : Nat) (l2 : List Nat)
    (hl2 : succChain s q l2) :
    ∀ (l1 : List Nat) (p : Nat), succChain s p l1 → l1.getLast? = some q →
      succChain s p (l1 ++ l2) := by
  intro l1
  induction l1 with
  | nil => intro p _ hlast; simp at hlast
  | cons c rest ih =>
    intro p hch hlast
    obtain ⟨hedge, hrest⟩ := hch
    cases rest with
    | nil =>
      have hq : c = q := by simpa using hlast
      subst hq
      exact ⟨hedge, hl2⟩
    | cons r rr =>
      refine ⟨hedge, ih c hrest ?_⟩
      simpa [List.getLast?_cons_cons] using hlast

/-- A topological measure on removable edges grows strictly along a
chain. -/
theorem succChain_f_lt (s : GraphState) (f : Nat → Nat)
    (hf : ∀ p c, removableEdge s p c = true → f p < f c) :
    ∀ (l : List Nat) (p : Nat), succChain s p l → ∀ x ∈ l, f p < f x := by
  intro l
  induction l with
  | nil => intro p _ x hx; simp at hx
  | cons c rest ih =>
    intro p hch x hx
    obtain ⟨hedge, hrest⟩ := hch
    rcases List.mem_cons.1 hx with rfl | hx2
    · exact hf p x hedge
    · exact Nat.lt_trans (hf p c hedge) (ih c hrest x hx2)

/-- The removable successor of a non-last chain element stays in the
chain. -/
theorem succChain_next_mem (s : GraphState) :
    ∀ (l : List Nat) (p : Nat), succChain s p l →
      ∀ x ∈ l.dropLast, ∀ y, removableEdge s x y = true → y ∈ l := by
  intro l
  induction l with
  | nil => intro p _ x hx; simp at hx
  | cons c rest ih =>
    intro p hch x hx y hy
    obtain ⟨hedge, hrest⟩ := hch
    cases rest with
    | nil => simp at hx
    | cons r rr =>
      rcases List.mem_cons.1 (by simpa [List.dropLast] using hx) with rfl | hx2
      · have : r = y := removable_succ_unique s x r y hrest.1 hy
        subst this
        exact List.mem_cons_of_mem _ (List.mem_cons_self _ _)
      · exact List.mem_cons_of_mem _ (ih c hrest x hx2 y hy)

/-- An element of a list that is not among its leading elements is the
last one. -/
theorem getLast?_of_mem_not_dropLast (l : List Nat) (x : Nat)
    (hmem : x ∈ l) (hnd : x ∉ l.dropLast) : l.getLast? = some x := by
  have hne : l ≠ [] := List.ne_nil_of_mem hmem
  have hsplit := List.dropLast_append_getLast hne
  rw [← hsplit] at hmem
  rcases List.mem_append.1 hmem with h | h
  · exact absurd h hnd
  · have hx : x = l.getLast hne := List.mem_singleton.1 h
    rw [hx]
    exact List.getLast?_eq_getLast l hne

/-- The last element of a list belongs to it. -/
theorem mem_of_getLast?_eq (l : List Nat) (a : Nat) (h : l.getLast? = some a) :
    a ∈ l := by
  induction l with
  | nil => simp at h
  | cons x xs ih =>
    cases xs with
    | nil =>
      have : x = a := by simpa using h
      simp [this]
    | cons y ys =>
      rw [List.getLast?_cons_cons] at h
      exact List.mem_cons_of_mem _ (ih h)

/-- A successful map lookup returns a stored entry. -/
theorem lookupRep_mem (rs : List (Nat × List Nat)) (k : Nat) (l : List Nat)
    (h : lookupRep rs k = some l) : (k, l) ∈ rs := by
  induction rs with
  | nil => simp [lookupRep] at h
  | cons e rest ih =>
    obtain ⟨a, v⟩ := e
    by_cases ha : a = k
    · subst ha
      rw [lookupRep, if_pos rfl] at h
      have hv : v = l := Option.some.inj h
      subst hv
      exact List.mem_cons_self _ _
    · rw [lookupRep, if_neg ha] at h
      exact List.mem_cons_of_mem _ (ih h)

/-- A lookup fails exactly on absent keys. -/
theorem lookupRep_none_iff (rs : List (Nat × List Nat)) (k : Nat) :
    lookupRep rs k = none ↔ k ∉ rs.map (·.1) := by
  induction rs with
  | nil => simp [lookupRep]
  | cons e rest ih =>
    obtain ⟨a, v⟩ := e
    by_cases ha : a = k
    · subst ha
      simp [lookupRep]
    · rw [lookupRep, if_neg ha]
      simp only [List.map_cons, List.mem_cons, ih]
      constructor
      · intro h hc
        rcases hc with hc | hc
        · exact ha hc.symm
        · exact h hc
      · intro h hc
        exact h (Or.inr hc)

/-- Under distinct keys a stored entry is found by lookup. -/
theorem mem_lookupRep (rs : List (Nat × List Nat)) (k : Nat) (l : List Nat)
    (hnd : (rs.map (·.1)).Nodup) (h : (k, l) ∈ rs) : lookupRep rs k = some l := by
  induction rs with
  | nil => simp at h
  | cons e rest ih =>
    obtain ⟨a, v⟩ := e
    rw [List.map_cons, List.nodup_cons] at hnd
    rcases List.mem_cons.1 h with heq | hmem
    · rcases heq with ⟨rfl, rfl⟩
      rw [lookupRep, if_pos rfl]
    · have ha : a ≠ k := by
        intro hak
        subst hak
        exact hnd.1 (List.mem_map.2 ⟨(a, l), hmem, rfl⟩)
      rw [lookupRep, if_neg ha]
      exact ih hnd.2 hmem

/-- Under distinct keys two entries sharing a key coincide. -/
theorem nodup_key_unique (rs : List (Nat × List Nat)) (k : Nat) (a b : List Nat)
    (hnd : (rs.map (·.1)).Nodup) (ha : (k, a) ∈ rs) (hb : (k, b) ∈ rs) : a = b := by
  have h1 := mem_lookupRep rs k a hnd ha
  have h2 := mem_lookupRep rs k b hnd hb
  rw [h1] at h2
  simpa using h2

/-- Key removal yields a sublist of the map. -/
theorem removeRep_sublist (rs : List (Nat × List Nat)) (k : Nat) :
    List.Sublist (removeRep rs k) rs := by
  induction rs with
  | nil => simp [removeRep]
  | cons e rest ih =>
    obtain ⟨a, v⟩ := e
    by_cases ha : a = k
    · rw [removeRep, if_pos ha]
      exact (List.Sublist.refl rest).cons _
    · rw [removeRep, if_neg ha]
      exact ih.cons₂ _

/-- Entries with a different key survive key removal. -/
theorem mem_removeRep_of_ne (rs : List (Nat × List Nat)) (k : Nat)
    (e : Nat × List Nat) (he : e ∈ rs) (hne : e.1 ≠ k) : e ∈ removeRep rs k := by
  induction rs with
  | nil => simp at he
  | cons x rest ih =>
    obtain ⟨a, v⟩ := x
    rcases List.mem_cons.1 he with rfl | hmem
    · rw [removeRep, if_neg hne]
      exact List.mem_cons_self _ _
    · by_cases ha : a = k
      · rw [removeRep, if_pos ha]
        exact hmem
      · rw [removeRep, if_neg ha]
        exact List.mem_cons_of_mem _ (ih hmem)

/-- Under distinct keys the removed key is gone. -/
theorem not_mem_keys_removeRep (rs : List (Nat × List Nat)) (k : Nat)
    (hnd : (rs.map (·.1)).Nodup) : k ∉ (removeRep rs k).map (·.1) := by
  induction rs with
  | nil => simp [removeRep]
  | cons e rest ih =>
    obtain ⟨a, v⟩ := e
    rw [List.map_cons, List.nodup_cons] at hnd
    by_cases ha : a = k
    · subst ha
      rw [removeRep, if_pos rfl]
      exact hnd.1
    · rw [removeRep, if_neg ha]
      intro hmem
      rcases List.mem_map.1 hmem with ⟨x, hx, hxk⟩
      rcases List.mem_cons.1 hx with rfl | hx2
      · exact ha hxk
      · exact ih hnd.2 (List.mem_map.2 ⟨x, hx2, hxk⟩)

/-- Removing a present key drops exactly one entry. -/
theorem length_removeRep (rs : List (Nat × List Nat)) (k : Nat)
    (h : k ∈ rs.map (·.1)) : (removeRep rs k).length + 1 = rs.length := by
  induction rs with
  | nil => simp at h
  | cons e rest ih =>
    obtain ⟨a, v⟩ := e
    by_cases ha : a = k
    · rw [removeRep, if_pos ha]
      simp
    · rw [removeRep, if_neg ha]
      have hr : k ∈ rest.map (·.1) := by
        rcases List.mem_map.1 h with ⟨x, hx, hxk⟩
        rcases List.mem_cons.1 hx with rfl | hx2
        · exact absurd hxk ha
        · exact List.mem_map.2 ⟨x, hx2, hxk⟩
      simpa using ih hr

/-- Appending under a present key keeps the key list. -/
theorem keys_appendRep_mem (rs : List (Nat × List Nat)) (k : Nat) (l2 : List Nat)
    (h : k ∈ rs.map (·.1)) : (appendRep rs k l2).map (·.1) = rs.map (·.1) := by
  induction rs with
  | nil => simp at h
  | cons e rest ih =>
    obtain ⟨a, v⟩ := e
    by_cases ha : a = k
    · rw [appendRep, if_pos ha]
      simp
    · rw [appendRep, if_neg ha]
      have hr : k ∈ rest.map (·.1) := by
        rcases List.mem_map.1 h with ⟨x, hx, hxk⟩
        rcases List.mem_cons.1 hx with rfl | hx2
        · exact absurd hxk ha
        · exact List.mem_map.2 ⟨x, hx2, hxk⟩
      simp [ih hr]

/-- Appending under a present key keeps the entry count. -/
theorem length_appendRep_mem (rs : List (Nat × List Nat)) (k : Nat) (l2 : List Nat)
    (h : k ∈ rs.map (·.1)) : (appendRep rs k l2).length = rs.length := by
  have := keys_appendRep_mem rs k l2 h
  have h1 : ((appendRep rs k l2).map (·.1)).length = (rs.map (·.1)).length := by
    rw [this]
  simpa using h1

/-- Membership in the map after appending, under distinct keys: the targeted
entry gains the suffix, the others are untouched. -/
theorem mem_appendRep_iff (rs : List (Nat × List Nat)) (k : Nat)
    (l l2 : List Nat) (hnd : (rs.map (·.1)).Nodup) (hk : (k, l) ∈ rs) :
    ∀ e, e ∈ appendRep rs k l2 ↔ (e ∈ rs ∧ e.1 ≠ k) ∨ e = (k, l ++ l2) := by
  intro e
  induction rs with
  | nil => simp at hk
  | cons x rest ih =>
    obtain ⟨a, v⟩ := x
    rw [List.map_cons, List.nodup_cons] at hnd
    by_cases ha : a = k
    · subst ha
      have hv : v = l := by
        rcases List.mem_cons.1 hk with heq | hmem
        · exact (Prod.mk.injEq _ _ _ _ ▸ heq).2.symm
        · exact absurd (List.mem_map.2 ⟨(a, l), hmem, rfl⟩) hnd.1
      subst hv
      rw [appendRep, if_pos rfl]
      constructor
      · intro h
        rcases List.mem_cons.1 h with rfl | hmem
        · exact Or.inr rfl
        · refine Or.inl ⟨List.mem_cons_of_mem _ hmem, ?_⟩
          intro hek
          exact hnd.1 (List.mem_map.2 ⟨e, hmem, hek⟩)
      · intro h
        rcases h with ⟨hmem, hne⟩ | rfl
        · rcases List.mem_cons.1 hmem with rfl | hmem2
          · exact absurd rfl hne
          · exact List.mem_cons_of_mem _ hmem2
        · exact List.mem_cons_self _ _
    · have hk2 : (k, l) ∈ rest := by
        rcases List.mem_cons.1 hk with heq | hmem
        · exact absurd (Prod.mk.injEq _ _ _ _ ▸ heq).1.symm ha
        · exact hmem
      rw [appendRep, if_neg ha]
      rw [List.mem_cons, ih hnd.2 hk2, List.mem_cons]
      constructor
      · intro h
        rcases h with rfl | ⟨hmem, hne⟩ | rfl
        · exact Or.inl ⟨Or.inl rfl, ha⟩
        · exact Or.inl ⟨Or.inr hmem, hne⟩
        · exact Or.inr rfl
      · intro h
        rcases h with ⟨hmem, hne⟩ | rfl
        · rcases hmem with rfl | hmem2
          · exact Or.inl rfl
          · exact Or.inr (Or.inl ⟨hmem2, hne⟩)
        · exact Or.inr (Or.inr rfl)

/-- When the coalescing pass finds nothing, no stored list ends in a key of
the reference map. -/
theorem coalesceFind_none_spec (all : List (Nat × List Nat)) :
    ∀ rs, coalesceFind all rs = none →
      ∀ e ∈ rs, ∀ q, e.2.getLast? = some q → lookupRep all q = none := by
  intro rs
  induction rs with
  | nil => intro _ e he; simp at he
  | cons x rest ih =>
    obtain ⟨p1, l1⟩ := x
    intro h e he q hq
    rcases List.mem_cons.1 he with rfl | hmem
    · have hq2 : l1.getLast? = some q := hq
      rw [coalesceFind, hq2] at h
      have h2 : (if (lookupRep all q).isSome then some (p1, q)
          else coalesceFind all rest) = none := h
      by_cases hs : (lookupRep all q).isSome = true
      · rw [if_pos hs] at h2
        exact absurd h2 (by simp)
      · cases hl : lookupRep all q with
        | none => rfl
        | some l => rw [hl] at hs; exact absurd rfl hs
    · have hrest : coalesceFind all rest = none := by
        rw [coalesceFind] at h
        cases hl1 : l1.getLast? with
        | none => rw [hl1] at h; exact h
        | some p2 =>
          rw [hl1] at h
          have h2 : (if (lookupRep all p2).isSome then some (p1, p2)
              else coalesceFind all rest) = none := h
          by_cases hs : (lookupRep all p2).isSome = true
          · rw [if_pos hs] at h2
            exact absurd h2 (by simp)
          · rw [if_neg hs] at h2
            exact h2
      exact ih hrest e hmem q hq

/-- What a successful coalescing pass returns: a stored entry whose list
ends in a key of the reference map. -/
theorem coalesceFind_some_spec (all : List (Nat × List Nat)) :
    ∀ rs p1 p2, coalesceFind all rs = some (p1, p2) →
      ∃ l1, (p1, l1) ∈ rs ∧ l1.getLast? = some p2 ∧
        (lookupRep all p2).isSome = true := by
  intro rs
  induction rs with
  | nil => intro p1 p2 h; simp [coalesceFind] at h
  | cons x rest ih =>
    obtain ⟨a, l⟩ := x
    intro p1 p2 h
    rw [coalesceFind] at h
    cases hl : l.getLast? with
    | none =>
      rw [hl] at h
      rcases ih p1 p2 h with ⟨l1, hmem, hlast, hsome⟩
      exact ⟨l1, List.mem_cons_of_mem _ hmem, hlast, hsome⟩
    | some q =>
      rw [hl] at h
      have h2 : (if (lookupRep all q).isSome then some (a, q)
          else coalesceFind all rest) = some (p1, p2) := h
      by_cases hs : (lookupRep all q).isSome = true
      · rw [if_pos hs] at h2
        have hinj := Option.some.inj h2
        have ha1 : a = p1 := congrArg Prod.fst hinj
        have hq2 : q = p2 := congrArg Prod.snd hinj
        subst ha1
        subst hq2
        exact ⟨l, List.mem_cons_self _ _, hl, hs⟩
      · rw [if_neg hs] at h2
        rcases ih p1 p2 h2 with ⟨l1, hmem, hlast, hsome⟩
        exact ⟨l1, List.mem_cons_of_mem _ hmem, hlast, hsome⟩

/-- The coalescing loop preserves the chain invariant, and with enough fuel
it reaches a state where no stored list ends in a stored key. -/
theorem coalesce_inv (s : GraphState) (f : Nat → Nat)
    (hf : ∀ p c, removableEdge s p c = true → f p < f c) :
    ∀ fuel rs, coalInv s rs →
      coalInv s (coalesce fuel rs) ∧
      (rs.length ≤ fuel →
        ∀ e ∈ coalesce fuel rs, ∀ q, e.2.getLast? = some q →
          q ∉ (coalesce fuel rs).map (·.1)) := by
  intro fuel
  induction fuel with
  | zero =>
    intro rs hinv
    refine ⟨hinv, ?_⟩
    intro hlen e he
    have hnil : rs = [] := List.length_eq_zero.1 (Nat.le_zero.1 hlen)
    subst hnil
    simp [coalesce] at he
  | succ fuel ih =>
    intro rs hinv
    cases hfind : coalesceFind rs rs with
    | none =>
      have hco : coalesce (fuel + 1) rs = rs := by rw [coalesce, hfind]
      rw [hco]
      refine ⟨hinv, ?_⟩
      intro _ e he q hq hqk
      have hnone := coalesceFind_none_spec rs rs hfind e he q hq
      rw [lookupRep_none_iff] at hnone
      exact hnone hqk
    | some pq =>
      obtain ⟨p1, p2⟩ := pq
      have hco : coalesce (fuel + 1) rs
          = coalesce fuel (appendRep (removeRep rs p2) p1 ((lookupRep rs p2).getD [])) := by
        rw [coalesce, hfind]
      rcases coalesceFind_some_spec rs rs p1 p2 hfind with ⟨l1, hl1mem, hl1last, hl2some⟩
      cases hl2 : lookupRep rs p2 with
      | none => rw [hl2] at hl2some; exact absurd hl2some (by simp)
      | some l2 =>
        rw [hl2, Option.getD_some] at hco
        have hl2mem : (p2, l2) ∈ rs := lookupRep_mem rs p2 l2 hl2
        obtain ⟨hent, hnd, hcov⟩ := hinv
        have hchain1 := (hent _ hl1mem).2
        have hne1 := (hent _ hl1mem).1
        have hchain2 := (hent _ hl2mem).2
        have hne2 := (hent _ hl2mem).1
        have hp2mem : p2 ∈ l1 := mem_of_getLast?_eq l1 p2 hl1last
        have hp1ne : p1 ≠ p2 := by
          intro heq
          rw [heq] at hchain1
          have := succChain_f_lt s f hf l1 p2 hchain1 p2 hp2mem
          exact Nat.lt_irrefl _ this
        have hp1mem2 : (p1, l1) ∈ removeRep rs p2 :=
          mem_removeRep_of_ne rs p2 (p1, l1) hl1mem hp1ne
        have hndrem : ((removeRep rs p2).map (·.1)).Nodup :=
          List.Nodup.sublist (List.Sublist.map _ (removeRep_sublist rs p2)) hnd
        have hmemiff := mem_appendRep_iff (removeRep rs p2) p1 l1 l2 hndrem hp1mem2
        have hdl : (l1 ++ l2).dropLast = l1 ++ l2.dropLast :=
          List.dropLast_append_of_ne_nil _ hne2
        have hp1new : (p1, l1 ++ l2) ∈ appendRep (removeRep rs p2) p1 l2 :=
          (hmemiff _).2 (Or.inr rfl)
        have hent2 : ∀ e ∈ appendRep (removeRep rs p2) p1 l2,
            e.2 ≠ [] ∧ succChain s e.1 e.2 := by
          intro e he
          rcases (hmemiff e).1 he with ⟨hmem, _⟩ | rfl
          · exact hent e ((removeRep_sublist rs p2).subset hmem)
          · constructor
            · intro hnil
              exact hne1 (List.append_eq_nil.1 hnil).1
            · exact succChain_append s p2 l2 hchain2 l1 p1 hchain1 hl1last
        have hkeys2 : (appendRep (removeRep rs p2) p1 l2).map (·.1)
            = (removeRep rs p2).map (·.1) :=
          keys_appendRep_mem (removeRep rs p2) p1 l2
            (List.mem_map.2 ⟨(p1, l1), hp1mem2, rfl⟩)
        have hnd2 : ((appendRep (removeRep rs p2) p1 l2).map (·.1)).Nodup := by
          rw [hkeys2]
          exact hndrem
        have hcov2 : ∀ n, hasRemOut s n →
            n ∈ (appendRep (removeRep rs p2) p1 l2).map (·.1) ∨
              ∃ e ∈ appendRep (removeRep rs p2) p1 l2, n ∈ e.2.dropLast := by
          intro n hro
          rcases hcov n hro with hk | ⟨⟨e1, e2⟩, hemem, hint⟩
          · by_cases hnp2 : n = p2
            · subst hnp2
              refine Or.inr ⟨(p1, l1 ++ l2), hp1new, ?_⟩
              show n ∈ (l1 ++ l2).dropLast
              rw [hdl]
              exact List.mem_append_left _ hp2mem
            · rcases List.mem_map.1 hk with ⟨e, hemem, hek⟩
              refine Or.inl ?_
              rw [hkeys2]
              refine List.mem_map.2 ⟨e, mem_removeRep_of_ne rs p2 e hemem ?_, hek⟩
              rw [hek]
              exact hnp2
          · by_cases hep2 : e1 = p2
            · have he2 : e2 = l2 :=
                nodup_key_unique rs p2 e2 l2 hnd (hep2 ▸ hemem) hl2mem
              refine Or.inr ⟨(p1, l1 ++ l2), hp1new, ?_⟩
              show n ∈ (l1 ++ l2).dropLast
              rw [hdl]
              exact List.mem_append_right _ (he2 ▸ hint)
            · by_cases hep1 : e1 = p1
              · have he2 : e2 = l1 :=
                  nodup_key_unique rs p1 e2 l1 hnd (hep1 ▸ hemem) hl1mem
                refine Or.inr ⟨(p1, l1 ++ l2), hp1new, ?_⟩
                show n ∈ (l1 ++ l2).dropLast
                rw [hdl]
                refine List.mem_append_left _ ?_
                exact he2 ▸ (List.dropLast_sublist e2).subset hint
              · exact Or.inr ⟨(e1, e2),
                  (hmemiff _).2 (Or.inl
                    ⟨mem_removeRep_of_ne rs p2 (e1, e2) hemem hep2, hep1⟩), hint⟩
        have hlen2 : (appendRep (removeRep rs p2) p1 l2).length + 1 = rs.length := by
          rw [length_appendRep_mem _ p1 l2 (List.mem_map.2 ⟨(p1, l1), hp1mem2, rfl⟩)]
          exact length_removeRep rs p2 (List.mem_map.2 ⟨(p2, l2), hl2mem, rfl⟩)
        rcases ih (appendRep (removeRep rs p2) p1 l2) ⟨hent2, hnd2, hcov2⟩ with ⟨hc1, hc2⟩
        rw [hco]
        refine ⟨hc1, ?_⟩
        intro hlenle
        exact hc2 (by omega)

/-- On a symmetric graph without two-cycles, the removability test applied
to a node and one of its descendant keys decides exactly the directed
removable edge. -/
theorem isRem_eq (s : GraphState)
    (hsym : symmetricGraph s) (hbnd : boundedGraph s)
    (hacyc : ∀ a, a < s.length → ∀ b, b < s.length →
      ¬(checkConnection s a b = true ∧ checkConnection s b a = true))
    (i c : Nat) (hi : i < s.length)
    (hc : c ∈ mapKeys (getN s i).descendants) :
    isRemovableConnection s i c = removableEdge s i c := by
  have hclen : c < s.length := ((hbnd i hi).1) c hc
  have hdesc : mapContains (getN s i).descendants c = true :=
    (mapContains_iff _ _).2 hc
  have hanc : mapContains (getN s c).ancestors i = true :=
    (hsym i hi c hclen).1 hdesc
  have hconn : checkConnection s i c = true := by
    rw [checkConnection, hdesc, hanc]
    rfl
  have hrev : checkConnection s c i = false := by
    cases hcc : checkConnection s c i with
    | false => rfl
    | true => exact absurd ⟨hconn, hcc⟩ (hacyc i hi c hclen)
  rw [isRemovableConnection, removableEdge, hrev, hconn]
  simp

/-- The child pass of the replacement construction is the identity when no
connection out of the node is removable. -/
theorem buildRepsChildren_nil_of_false (s : GraphState) (ptr : Nat) :
    ∀ (cs : List Nat) (rs : List (Nat × List Nat)),
      (∀ c ∈ cs, isRemovableConnection s ptr c = false) →
      buildRepsChildren s ptr cs rs = rs := by
  intro cs
  induction cs with
  | nil => intro rs _; rfl
  | cons c rest ih =>
    intro rs h
    have hc := h c (List.mem_cons_self _ _)
    rw [buildRepsChildren]
    simp only [hc, Bool.false_eq_true, if_false]
    exact ih rs (fun c2 hc2 => h c2 (List.mem_cons_of_mem _ hc2))

/-- The child pass over a removable single child appends it. -/
theorem buildRepsChildren_single (s : GraphState) (ptr c : Nat)
    (rs : List (Nat × List Nat)) (h : isRemovableConnection s ptr c = true) :
    buildRepsChildren s ptr [c] rs = appendRep rs ptr [c] := by
  have hi : (if isRemovableConnection s ptr c = true then appendRep rs ptr [c] else rs)
      = appendRep rs ptr [c] := if_pos h
  calc buildRepsChildren s ptr [c] rs
      = buildRepsChildren s ptr []
        (if isRemovableConnection s ptr c = true then appendRep rs ptr [c] else rs) := rfl
    _ = (if isRemovableConnection s ptr c = true then appendRep rs ptr [c] else rs) := rfl
    _ = appendRep rs ptr [c] := hi

/-- Invariant of the replacement construction: each accumulated entry is a
single removable step, keys are distinct, and the keys are exactly the
already-processed nodes with a removable outgoing edge. -/
theorem buildRepsFrom_gen (s : GraphState)
    (hsym : symmetricGraph s) (hbnd : boundedGraph s)
    (hacyc : ∀ a, a < s.length → ∀ b, b < s.length →
      ¬(checkConnection s a b = true ∧ checkConnection s b a = true)) :
    ∀ (idxs : List Nat) (rs : List (Nat × List Nat)),
      (∀ i ∈ idxs, i < s.length) → idxs.Nodup →
      (∀ e ∈ rs, ∃ c, e.2 = [c] ∧ removableEdge s e.1 c = true) →
      (rs.map (·.1)).Nodup →
      (∀ i ∈ idxs, i ∉ rs.map (·.1)) →
      (∀ e ∈ buildRepsFrom s
          (idxs.map (fun i => (i, mapKeys (getN s i).descendants))) rs,
        ∃ c, e.2 = [c] ∧ removableEdge s e.1 c = true) ∧
      ((buildRepsFrom s
          (idxs.map (fun i => (i, mapKeys (getN s i).descendants))) rs).map (·.1)).Nodup ∧
      (∀ n, n ∈ (buildRepsFrom s
          (idxs.map (fun i => (i, mapKeys (getN s i).descendants))) rs).map (·.1)
        ↔ n ∈ rs.map (·.1) ∨ (n ∈ idxs ∧ hasRemOut s n)) := by
  intro idxs
  induction idxs with
  | nil =>
    intro rs _ _ hent hnd _
    refine ⟨hent, hnd, ?_⟩
    intro n
    simp [buildRepsFrom]
  | cons i rest ih =>
    intro rs hlt hndidx hent hnd hdisj
    have hilt : i < s.length := hlt i (List.mem_cons_self _ _)
    have hlt2 : ∀ j ∈ rest, j < s.length :=
      fun j hj => hlt j (List.mem_cons_of_mem _ hj)
    have hndrest : rest.Nodup := (List.nodup_cons.1 hndidx).2
    have hinotrest : i ∉ rest := (List.nodup_cons.1 hndidx).1
    rw [List.map_cons, buildRepsFrom]
    by_cases hrem : ∃ c, removableEdge s i c = true
    · obtain ⟨c, hc⟩ := hrem
      have hcs : mapKeys (getN s i).descendants = [c] := desc_keys_singleton s i c hc
      have hcmem : c ∈ mapKeys (getN s i).descendants := by
        rw [hcs]
        exact List.mem_singleton_self c
      have hisrem : isRemovableConnection s i c = true := by
        rw [isRem_eq s hsym hbnd hacyc i c hilt hcmem]
        exact hc
      have hinotin : i ∉ rs.map (·.1) := hdisj i (List.mem_cons_self _ _)
      rw [hcs, buildRepsChildren_single s i c rs hisrem,
        appendRep_not_mem rs i [c]
          (fun p hp hpk => hinotin (List.mem_map.2 ⟨p, hp, hpk⟩))]
      have hent2 : ∀ e ∈ rs ++ [(i, [c])],
          ∃ c2, e.2 = [c2] ∧ removableEdge s e.1 c2 = true := by
        intro e he
        rcases List.mem_append.1 he with hmem | hmem
        · exact hent e hmem
        · rcases List.mem_singleton.1 hmem with rfl
          exact ⟨c, rfl, hc⟩
      have hnd2 : ((rs ++ [(i, [c])]).map (·.1)).Nodup := by
        rw [List.map_append]
        simp only [List.nodup_append, List.map_cons, List.map_nil]
        refine ⟨hnd, List.nodup_singleton _, ?_⟩
        intro a ha hb
        rcases List.mem_singleton.1 hb with rfl
        exact hinotin ha
      have hdisj2 : ∀ j ∈ rest, j ∉ (rs ++ [(i, [c])]).map (·.1) := by
        intro j hj hmem
        rw [List.map_append] at hmem
        rcases List.mem_append.1 hmem with hmem2 | hmem2
        · exact hdisj j (List.mem_cons_of_mem _ hj) hmem2
        · have hji : j = i := by simpa using hmem2
          exact hinotrest (hji ▸ hj)
      rcases ih (rs ++ [(i, [c])]) hlt2 hndrest hent2 hnd2 hdisj2 with ⟨h1, h2, h3⟩
      refine ⟨h1, h2, ?_⟩
      intro n
      rw [h3 n, List.map_append]
      constructor
      · rintro (h | ⟨hm, hro⟩)
        · rcases List.mem_append.1 h with h | h
          · exact Or.inl h
          · rcases List.mem_singleton.1 (by simpa using h) with rfl
            exact Or.inr ⟨List.mem_cons_self _ _,
              ⟨c, (removableEdge_lt s n c hc).2, hc⟩⟩
        · exact Or.inr ⟨List.mem_cons_of_mem _ hm, hro⟩
      · rintro (h | ⟨hm, hro⟩)
        · exact Or.inl (List.mem_append_left _ h)
        · rcases List.mem_cons.1 hm with rfl | hm2
          · refine Or.inl (List.mem_append_right _ ?_)
            simp
          · exact Or.inr ⟨hm2, hro⟩
    · have hfalse : ∀ c ∈ mapKeys (getN s i).descendants,
          isRemovableConnection s i c = false := by
        intro c hcmem
        rw [isRem_eq s hsym hbnd hacyc i c hilt hcmem]
        cases hrc : removableEdge s i c with
        | false => rfl
        | true => exact absurd ⟨c, hrc⟩ hrem
      rw [buildRepsChildren_nil_of_false s i _ rs hfalse]
      have hdisj2 : ∀ j ∈ rest, j ∉ rs.map (·.1) :=
        fun j hj => hdisj j (List.mem_cons_of_mem _ hj)
      rcases ih rs hlt2 hndrest hent hnd hdisj2 with ⟨h1, h2, h3⟩
      refine ⟨h1, h2, ?_⟩
      intro n
      rw [h3 n]
      constructor
      · rintro (h | ⟨hm, hro⟩)
        · exact Or.inl h
        · exact Or.inr ⟨List.mem_cons_of_mem _ hm, hro⟩
      · rintro (h | ⟨hm, hro⟩)
        · exact Or.inl h
        · rcases List.mem_cons.1 hm with rfl | hm2
          · obtain ⟨c, hclt, hrc⟩ := hro
            exact absurd ⟨c, hrc⟩ hrem
          · exact Or.inr ⟨hm2, hro⟩

/-- The replacement map built by `improveTree` satisfies the coalescing
invariant. -/
theorem buildReplacements_inv (s : GraphState)
    (hsym : symmetricGraph s) (hbnd : boundedGraph s)
    (hacyc : ∀ a, a < s.length → ∀ b, b < s.length →
      ¬(checkConnection s a b = true ∧ checkConnection s b a = true)) :
    coalInv s (buildReplacements s) := by
  have h := buildRepsFrom_gen s hsym hbnd hacyc (List.range s.length) []
    (fun i hi => List.mem_range.1 hi) (List.nodup_range _)
    (by intro e he; simp at he) (by simp) (by intro i _; simp)
  rw [buildReplacements, flattenTree]
  rcases h with ⟨h1, h2, h3⟩
  refine ⟨?_, h2, ?_⟩
  · intro e he
    rcases h1 e he with ⟨c, hc2, hrc⟩
    constructor
    · rw [hc2]
      simp
    · rw [hc2]
      exact ⟨hrc, trivial⟩
  · intro n hro
    refine Or.inl ?_
    rw [h3 n]
    refine Or.inr ⟨?_, hro⟩
    obtain ⟨c, hclt, hrc⟩ := hro
    exact List.mem_range.2 (removableEdge_lt s n c hrc).1

/-- Under the chain invariant and finality, a node sits strictly inside
some replacement list exactly when it has both an incoming and an outgoing
removable edge. -/
theorem serialized_iff (s : GraphState) (rs : List (Nat × List Nat))
    (hinv : coalInv s rs)
    (hfin : ∀ e ∈ rs, ∀ q, e.2.getLast? = some q → q ∉ rs.map (·.1)) :
    ∀ n, (∃ e ∈ rs, n ∈ e.2.dropLast) ↔ (hasRemIn s n ∧ hasRemOut s n) := by
  obtain ⟨hent, hnd, hcov⟩ := hinv
  intro n
  constructor
  · rintro ⟨e, hemem, hint⟩
    have hch := (hent e hemem).2
    constructor
    · exact succChain_remIn s e.2 e.1 hch n ((List.dropLast_sublist e.2).subset hint)
    · exact succChain_dropLast_remOut s e.2 e.1 hch n hint
  · rintro ⟨hin, hout⟩
    rcases hcov n hout with hk | hint
    · obtain ⟨p, hplt, hpn⟩ := hin
      have hpro : hasRemOut s p := ⟨n, (removableEdge_lt s p n hpn).2, hpn⟩
      rcases hcov p hpro with hpk | ⟨e, hemem, hpint⟩
      · rcases List.mem_map.1 hpk with ⟨ep, hpmem, hp1⟩
        have hlpne := (hent _ hpmem).1
        have hch := (hent _ hpmem).2
        rw [hp1] at hch
        cases hlp : ep.2 with
        | nil => exact absurd hlp hlpne
        | cons hd tl =>
          rw [hlp] at hch
          have hch2 : removableEdge s p hd = true ∧ succChain s hd tl := hch
          have hn : hd = n := removable_succ_unique s p hd n hch2.1 hpn
          have hnmem : n ∈ ep.2 := by
            rw [hlp, ← hn]
            exact List.mem_cons_self _ _
          by_cases hnd2 : n ∈ ep.2.dropLast
          · exact ⟨ep, hpmem, hnd2⟩
          · have hlast := getLast?_of_mem_not_dropLast ep.2 n hnmem hnd2
            exact absurd hk (hfin ep hpmem n hlast)
      · have hch := (hent e hemem).2
        have hnmem : n ∈ e.2 := succChain_next_mem s e.2 e.1 hch p hpint n hpn
        by_cases hnd2 : n ∈ e.2.dropLast
        · exact ⟨e, hemem, hnd2⟩
        · have hlast := getLast?_of_mem_not_dropLast e.2 n hnmem hnd2
          exact absurd hk (hfin e hemem n hlast)
    · exact hint

/-- Clearing the flag twice is the same as clearing it once. -/
theorem serOff_idem (q : QAlgorithm) :
    ({ ({ q with parallelFlag := false } : QAlgorithm)
        with parallelFlag := false } : QAlgorithm)
      = { q with parallelFlag := false } := rfl

/-- Folding flag-clearing updates keeps the node count. -/
theorem length_foldSer :
    ∀ (l : List Nat) (s : GraphState),
      (l.foldl (fun st m =>
        updN st m (fun q => { q with parallelFlag := false })) s).length
        = s.length := by
  intro l
  induction l with
  | nil => intro s; rfl
  | cons m rest ih =>
    intro s
    rw [List.foldl_cons, ih, length_updN]

/-- Reading a node after folding flag-clearing updates over an index
list. -/
theorem getN_foldSer :
    ∀ (l : List Nat) (s : GraphState) (n : Nat),
      getN (l.foldl (fun st m =>
        updN st m (fun q => { q with parallelFlag := false })) s) n
        = if n ∈ l ∧ n < s.length
          then { getN s n with parallelFlag := false } else getN s n := by
  intro l
  induction l with
  | nil =>
    intro s n
    simp
  | cons m rest ih =>
    intro s n
    rw [List.foldl_cons,
      ih (updN s m (fun q => { q with parallelFlag := false })) n]
    simp only [length_updN, getN_updN]
    by_cases hn : n < s.length
    · by_cases hm : m = n
      · subst hm
        by_cases hr : m ∈ rest <;>
          simp [hn, hr, serOff_idem]
      · by_cases hr : n ∈ rest <;>
          simp [hn, hm, Ne.symm hm, hr]
    · simp [hn]

/-- Reading a node after the serialising pass of `improveTree`: exactly the
strict interiors of the replacement lists lose their parallel flag. -/
theorem getN_applySerial :
    ∀ (rs : List (Nat × List Nat)) (s : GraphState) (n : Nat),
      getN (applySerial s rs) n
        = if (∃ e ∈ rs, n ∈ e.2.dropLast) ∧ n < s.length
          then { getN s n with parallelFlag := false } else getN s n := by
  intro rs
  induction rs with
  | nil =>
    intro s n
    simp [applySerial]
  | cons e rest ih =>
    intro s n
    have hstep : applySerial s (e :: rest)
        = applySerial (e.2.dropLast.foldl (fun st m =>
            updN st m (fun q => { q with parallelFlag := false })) s) rest := by
      rw [applySerial, List.foldl_cons]
      rfl
    rw [hstep, ih, length_foldSer, getN_foldSer]
    by_cases hn : n < s.length
    · by_cases he : n ∈ e.2.dropLast
      · by_cases hr : ∃ e2 ∈ rest, n ∈ e2.2.dropLast <;>
          simp [hn, he, hr, serOff_idem]
      · by_cases hr : ∃ e2 ∈ rest, n ∈ e2.2.dropLast <;>
          simp [hn, he, hr]
    · simp [hn]

/-- C9 (amended): in any tree whose connections are symmetric, stay inside
the graph, form no two-cycles and admit a topological order on removable
edges, `improveTree` sets `ParallelExecution = false` on exactly the nodes
with both an incoming and an outgoing removable connection — every node of
each coalesced chain except the first and the last — and leaves every
other node untouched. -/
theorem C9_amended_chain_interiors (s : GraphState) (f : Nat → Nat) (i : Nat)
    (hsym : symmetricGraph s) (hbnd : boundedGraph s)
    (hacyc : ∀ a, a < s.length → ∀ b, b < s.length →
      ¬(checkConnection s a b = true ∧ checkConnection s b a = true))
    (hf : ∀ p, p < s.length → ∀ c, c < s.length →
      removableEdge s p c = true → f p < f c) :
    ((hasRemIn s i ∧ hasRemOut s i) →
      getN (improveTree s) i = { getN s i with parallelFlag := false })
    ∧ (¬(hasRemIn s i ∧ hasRemOut s i) → getN (improveTree s) i = getN s i) := by
  have hf2 : ∀ p c, removableEdge s p c = true → f p < f c := by
    intro p c h
    exact hf p (removableEdge_lt s p c h).1 c (removableEdge_lt s p c h).2 h
  have hinv := buildReplacements_inv s hsym hbnd hacyc
  rcases coalesce_inv s f hf2 (buildReplacements s).length (buildReplacements s) hinv
    with ⟨hinv2, hfin⟩
  have hfin2 := hfin (Nat.le_refl _)
  have hiff := serialized_iff s
    (coalesce (buildReplacements s).length (buildReplacements s)) hinv2 hfin2 i
  simp only [improveTree]
  rw [getN_applySerial]
  constructor
  · intro hio
    have hser := hiff.2 hio
    have hilt : i < s.length := by
      obtain ⟨⟨p, _, hpe⟩, _⟩ := hio
      exact (removableEdge_lt s p i hpe).2
    rw [if_pos ⟨hser, hilt⟩]
  · intro hnio
    rw [if_neg ?_]
    rintro ⟨hser, _⟩
    exact hnio (hiff.1 hser)

/-- Concrete run of the amended C9 theorem on the branching tree
`0 → {1, 2}`, `1 → 3 → 4`, whose only coalesced chain is `1 → 3 → 4`: the
interior node 3 is serialised. -/
theorem C9_amended_chain_interiors_witness :
    getN (improveTree sBranch) 3
      = { getN sBranch 3 with parallelFlag := false } :=
  (C9_amended_chain_interiors sBranch id 3
    (by unfold symmetricGraph; decide)
    (by unfold boundedGraph; decide)
    (by decide)
    (by decide)).1
    ⟨⟨1, by decide, by decide⟩, ⟨4, by decide, by decide⟩⟩
